import Mathlib

/-!
# gomonkey: `modify_binary_darwin.go`

A shallow embedding of `modifyBinary` and `mprotectCrossPage` and the
properties of the memory-patching primitive that follow from the code.

Conventions of the embedding:

* `uintptr` is a 64-bit word: a `Nat` below `W = 2^64`, all arithmetic on it
  reduced modulo `W`;
* Go `int` values are `Int`; the conversion `uintptr(x)` is `toUintptr`;
* the process state is a `Machine`: the bytes of memory, the protection flags
  in force at every address, and the chronological list of observable events
  (protection requests with their result, the copy, the sleep);
* the operating system is a `Kernel`: the page size it reports and, for every
  protection request, whether it is accepted or refused with an error number;
* element `i` of a byte slice that views memory lives at address
  `(Data + i) mod 2^64`; the builtin `copy` stores the bytes there in order,
  and a store to an address whose protection flags do not include write
  faults: the process is killed and the run ends as `Outcome.faulted`;
* the `for` loop of `mprotectCrossPage` is run with a fuel bound, since with
  wrapping arithmetic it need not terminate.
-/

namespace Gomonkey

/-- The number of values of a `uintptr` on darwin (amd64 and arm64). -/
def W : Nat := 2 ^ 64

/-- The Go conversion `uintptr(x)` of an `int`: reduction modulo `2^64`. -/
def toUintptr (x : Int) : Nat := (x % (W : Int)).toNat

/-- A Go `[]byte` header: where its first element lives and how many elements it has. -/
structure Slice where
  Data : Nat
  Len : Int

/-- The observable steps of a run, in the order they happen. -/
inductive Event where
  | mprotect (addr : Nat) (len : Int) (prot : Nat) (err : Option Nat)
  | copy (dst : Nat) (bytes : List Nat)
  | sleep (ns : Nat)
  deriving DecidableEq, Repr

/-- The state of the process: memory bytes, protection flags by address, event log. -/
structure Machine where
  mem : Nat → Nat
  prot : Nat → Nat
  trace : List Event

/-- The operating system as seen by the code: its page size, and the error (if any)
with which it answers a protection request `(addr, len, prot)` made in a given state. -/
structure Kernel where
  pagesize : Nat
  mprotectErr : Machine → Nat → Int → Nat → Option Nat

/-- The constant `syscall.PROT_READ` on darwin. -/
def PROT_READ : Nat := 1

/-- The constant `syscall.PROT_WRITE` on darwin. -/
def PROT_WRITE : Nat := 2

/-- The constant `syscall.PROT_EXEC` on darwin. -/
def PROT_EXEC : Nat := 4

/-- The constant `time.Millisecond`, in nanoseconds. -/
def Millisecond : Nat := 1000000

/-- The call `syscall.Getpagesize()`: the page size of the system as an `int`. -/
def Getpagesize (k : Kernel) : Int := (k.pagesize : Int)

/-- Modelled from the spec: `pageStart` is not in `modify_binary_darwin.go`; the spec
describes its result as the address rounded down to the page size, the start of the
page containing the address. -/
def pageStart (k : Kernel) (ptr : Nat) : Nat := ptr - ptr % k.pagesize

/-- Modelled from the spec: `entryAddress` is not in `modify_binary_darwin.go`; the spec
describes its result as the region of the given length starting at the given address,
here the byte slice with that start and that length. -/
def entryAddress (p : Nat) (l : Int) : Slice := ⟨p, l⟩

/-- The state after the system has accepted a protection request: the flags hold at
every address of the region, and the request is logged as successful. -/
def grant (m : Machine) (addr : Nat) (len : Int) (prot : Nat) : Machine :=
  { mem := m.mem
    prot := fun a => if addr ≤ a ∧ (a : Int) < (addr : Int) + len then prot else m.prot a
    trace := m.trace ++ [Event.mprotect addr len prot none] }

/-- The state after the system has refused a protection request: only the log grows. -/
def refuse (m : Machine) (addr : Nat) (len : Int) (prot : Nat) (e : Nat) : Machine :=
  { m with trace := m.trace ++ [Event.mprotect addr len prot (some e)] }

/-- The call `syscall.Mprotect(b, prot)`: the request covers the bytes of `b`. -/
def Mprotect (k : Kernel) (m : Machine) (b : Slice) (prot : Nat) : Option Nat × Machine :=
  match k.mprotectErr m b.Data b.Len prot with
  | some e => (some e, refuse m b.Data b.Len prot e)
  | none => (none, grant m b.Data b.Len prot)

/-- What a call of `mprotectCrossPage` has produced when it stops or runs out of fuel. -/
inductive Result where
  | done (err : Option Nat) (m : Machine)
  | running (m : Machine)

/-- The `for` loop of `mprotectCrossPage`, from the loop variable `p` on. -/
def mprotectLoop (k : Kernel) (addr : Nat) (length : Int) (prot : Nat) (pageSize : Int) :
    Nat → Nat → Machine → Result
  | 0, _, m => Result.running m
  | fuel + 1, p, m =>
    if p < (addr + toUintptr length) % W then
      let page := entryAddress p pageSize
      match Mprotect k m page prot with
      | (some err, m1) => Result.done (some err) m1
      | (none, m1) =>
        mprotectLoop k addr length prot pageSize fuel ((p + toUintptr pageSize) % W) m1
    else Result.done none m

/-- The function `mprotectCrossPage(addr, length, prot)`. -/
def mprotectCrossPage (fuel : Nat) (k : Kernel) (m : Machine) (addr : Nat) (length : Int)
    (prot : Nat) : Result :=
  let pageSize := Getpagesize k
  mprotectLoop k addr length prot pageSize fuel (pageStart k addr) m

/-- Stores the bytes of a list at consecutive addresses, the first at `a`. -/
def storeBytes (mem : Nat → Nat) (a : Nat) : List Nat → Nat → Nat
  | [] => mem
  | b :: bs => storeBytes (Function.update mem (a % W) b) (a + 1) bs

/-- Whether the protection flags in force at an address allow a store to it. -/
def writable (prot : Nat → Nat) (a : Nat) : Bool := prot a &&& PROT_WRITE != 0

/-- The number of leading bytes of a list stored from `a` on whose addresses are
writable: the whole length when no store faults. -/
def storable (prot : Nat → Nat) (a : Nat) : List Nat → Nat
  | [] => 0
  | _ :: bs => if writable prot (a % W) then storable prot (a + 1) bs + 1 else 0

/-- The state after the bytes have been stored from `a` on and the copy is complete. -/
def stored (m : Machine) (a : Nat) (bytes : List Nat) : Machine :=
  { m with
    mem := storeBytes m.mem a bytes
    trace := m.trace ++ [Event.copy a bytes] }

/-- The state in which a store of the copy faults: the bytes before the faulting one
are in memory, the copy is not complete. -/
def faultedAt (m : Machine) (a : Nat) (bytes : List Nat) : Machine :=
  { m with mem := storeBytes m.mem a (bytes.take (storable m.prot a bytes)) }

/-- The builtin `copy(dst, src)` on byte slices, `dst` being a view of memory: the
bytes are stored in order, and the first store to an address that is not writable
faults (`Except.error`, with the state at the fault). -/
def copy (m : Machine) (dst : Slice) (src : List Nat) : Except Machine Machine :=
  let n := (min dst.Len (src.length : Int)).toNat
  if storable m.prot dst.Data (src.take n) = (src.take n).length then
    Except.ok (stored m dst.Data (src.take n))
  else Except.error (faultedAt m dst.Data (src.take n))

/-- The call `time.Sleep(d)`. -/
def Sleep (m : Machine) (d : Nat) : Machine :=
  { m with trace := m.trace ++ [Event.sleep d] }

/-- How a call of `modifyBinary` ends: normal return, panic with an error, death of the
process by a fault in the copy, or still running when the fuel is spent. -/
inductive Outcome where
  | returned (m : Machine)
  | panicked (err : Nat) (m : Machine)
  | faulted (m : Machine)
  | running (m : Machine)

/-- The function `modifyBinary(target, bytes)`. -/
def modifyBinary (fuel : Nat) (k : Kernel) (m : Machine) (target : Nat) (bytes : List Nat) :
    Outcome :=
  let function := entryAddress target (bytes.length : Int)
  match mprotectCrossPage fuel k m target (bytes.length : Int) (PROT_READ ||| PROT_WRITE) with
  | Result.running m1 => Outcome.running m1
  | Result.done (some err) m1 => Outcome.panicked err m1
  | Result.done none m1 =>
    match copy m1 function bytes with
    | Except.error m2 => Outcome.faulted m2
    | Except.ok m2 =>
      match mprotectCrossPage fuel k m2 target (bytes.length : Int)
          (PROT_READ ||| PROT_EXEC) with
      | Result.running m3 => Outcome.running m3
      | Result.done (some err) m3 => Outcome.panicked err m3
      | Result.done none m3 => Outcome.returned (Sleep m3 Millisecond)

/-- The machine state carried by a result. -/
def Result.machine : Result → Machine
  | Result.done _ m => m
  | Result.running m => m

/-- The machine state carried by an outcome. -/
def Outcome.machine : Outcome → Machine
  | Outcome.returned m => m
  | Outcome.panicked _ m => m
  | Outcome.faulted m => m
  | Outcome.running m => m

/-- Reads `n` bytes of memory, the first at `a`. -/
def readBytes (mem : Nat → Nat) (a : Nat) (n : Nat) : List Nat :=
  (List.range n).map (fun i => mem ((a + i) % W))

/-- The page-start addresses of the protection requests in a list of events. -/
def requestedPages : List Event → List Nat
  | [] => []
  | Event.mprotect a _ _ _ :: es => a :: requestedPages es
  | _ :: es => requestedPages es

/-- The events a run has added to the log of the state `m` it started from. -/
def emitted (m m1 : Machine) : List Event := m1.trace.drop m.trace.length

/-- A kernel with the given page size that accepts every request. -/
def kernelOk (ps : Nat) : Kernel := ⟨ps, fun _ _ _ _ => none⟩

/-- A kernel with the given page size that refuses, with error `e`, exactly the requests
for page `q` with flags `prot`. -/
def kernelFailing (ps q prot e : Nat) : Kernel :=
  ⟨ps, fun _ a _ p => if a = q ∧ p = prot then some e else none⟩

/-- A machine with zeroed memory, no protection flags set and an empty log. -/
def machine0 : Machine := ⟨fun _ => 0, fun _ => 0, []⟩

/-- The successful request events for a list of page starts. -/
def okEvents (len : Int) (prot : Nat) (pages : List Nat) : List Event :=
  pages.map (fun p => Event.mprotect p len prot none)

/-- The state after `c` consecutive pages, the first at `p`, have been granted `prot`. -/
def grants (len : Int) (step : Nat) (prot : Nat) : Nat → Nat → Machine → Machine
  | 0, _, m => m
  | c + 1, p, m => grants len step prot c (p + step) (grant m p len prot)

/-- The page starts `p, p + step, ...`, `c` of them. -/
def pagesFrom (p step c : Nat) : List Nat := (List.range c).map (fun i => p + i * step)

/-- The number of pages of size `ps` that the loop of `mprotectCrossPage` visits for
`(addr, n)` when it stops: none when `addr + n` wraps around, otherwise the pages from
the one containing `addr` up to the one containing the last byte. -/
def touchedCount (ps addr n : Nat) : Nat :=
  if addr + n < W then (addr + n + ps - 1) / ps - addr / ps else 0

/-- The page sizes considered: powers of two that fit a Go `int`. -/
def pageSizeOk (k : Kernel) : Prop := ∃ j, j ≤ 62 ∧ k.pagesize = 2 ^ j

/-- The kernel accepts every protection request. -/
def allSucceed (k : Kernel) : Prop := ∀ m a l p, k.mprotectErr m a l p = none


/-- The step of `modifyBinary` an event belongs to: granting write is step 0, the copy
step 1, granting execute step 2, the delay step 3 (a request with other flags: 4). -/
def phase : Event → Nat
  | Event.mprotect _ _ prot _ =>
    if prot = PROT_READ ||| PROT_WRITE then 0
    else if prot = PROT_READ ||| PROT_EXEC then 2 else 4
  | Event.copy _ _ => 1
  | Event.sleep _ => 3

/-- Page-range correctness of a call `mprotectCrossPage(addr, n, prot)` started in state
`m`: the call returns `nil`, and the page starts it has passed to `Mprotect` begin at
`pageStart(addr)`, advance by exactly the page size, and end with a page start `last`
such that `last < addr + n ≤ last + pagesize`. -/
def PageRangeCorrect (k : Kernel) (m : Machine) (addr n prot : Nat) : Prop :=
  ∃ fuel m1, mprotectCrossPage fuel k m addr (n : Int) prot = Result.done none m1 ∧
    (requestedPages (emitted m m1)).head? = some (pageStart k addr) ∧
    List.Chain' (fun a b => b = a + k.pagesize) (requestedPages (emitted m m1)) ∧
    ∃ last, (requestedPages (emitted m m1)).getLast? = some last ∧
      last < addr + n ∧ addr + n ≤ last + k.pagesize

/-- Page-count correctness of a call `mprotectCrossPage(addr, n, prot)` started in state
`m`: the call returns `nil` after exactly as many requests as there are pages meeting
`[addr, addr + n)`. -/
def PageCountCorrect (k : Kernel) (m : Machine) (addr n prot : Nat) : Prop :=
  ∃ fuel m1, mprotectCrossPage fuel k m addr (n : Int) prot = Result.done none m1 ∧
    (requestedPages (emitted m m1)).length =
      (addr + n - 1) / k.pagesize - addr / k.pagesize + 1

/-- A saturating loop bound for a call `mprotectCrossPage(addr, n, prot)` started in
state `m`: the call returns `nil` having requested every page from `pageStart(addr)` up
to the top of the address space. -/
def SaturatesToTop (k : Kernel) (m : Machine) (addr n prot : Nat) : Prop :=
  ∃ fuel m1, mprotectCrossPage fuel k m addr (n : Int) prot = Result.done none m1 ∧
    requestedPages (emitted m m1) =
      pagesFrom (pageStart k addr) k.pagesize ((W - pageStart k addr) / k.pagesize)

/-- The state in which a call `modifyBinary(A, B)` started in state `m` returns: write
granted on the pages the loop visits, the bytes copied, execute granted on the same
pages, the delay taken. -/
def installed (k : Kernel) (m : Machine) (A : Nat) (B : List Nat) : Machine :=
  Sleep
    (grants (k.pagesize : Int) k.pagesize (PROT_READ ||| PROT_EXEC)
      (touchedCount k.pagesize A B.length) (pageStart k A)
      (stored
        (grants (k.pagesize : Int) k.pagesize (PROT_READ ||| PROT_WRITE)
          (touchedCount k.pagesize A B.length) (pageStart k A) m)
        A B))
    Millisecond

/-! ## Machine words -/

theorem W_eq : W = 18446744073709551616 := by
  unfold W; norm_num

theorem W_pos : 0 < W := by
  rw [W_eq]; norm_num

theorem toUintptr_natCast (n : Nat) : toUintptr (n : Int) = n % W := by
  unfold toUintptr
  rw [← Int.natCast_mod]
  exact Int.toNat_natCast _

theorem toUintptr_of_lt {n : Nat} (h : n < W) : toUintptr (n : Int) = n := by
  rw [toUintptr_natCast, Nat.mod_eq_of_lt h]

/-! ## The copy -/

theorem storeBytes_frame (bs : List Nat) : ∀ (mem : Nat → Nat) (a x : Nat),
    (∀ i, i < bs.length → x ≠ (a + i) % W) → storeBytes mem a bs x = mem x := by
  induction bs with
  | nil => intro mem a x _; rfl
  | cons b bs ih =>
    intro mem a x h
    simp only [storeBytes]
    rw [ih]
    · have h0 := h 0 (by simp)
      rw [Nat.add_zero] at h0
      exact Function.update_noteq h0 b mem
    · intro i hi
      have h1 := h (i + 1) (by simp only [List.length_cons]; omega)
      rwa [show a + 1 + i = a + (i + 1) by omega]

theorem storeBytes_hit (bs : List Nat) : ∀ (mem : Nat → Nat) (a i : Nat) (hi : i < bs.length),
    bs.length ≤ W → storeBytes mem a bs ((a + i) % W) = bs[i] := by
  induction bs with
  | nil => intro mem a i hi; simp at hi
  | cons b bs ih =>
    intro mem a i hi hlen
    simp only [List.length_cons] at hi hlen
    simp only [storeBytes]
    cases i with
    | zero =>
      rw [Nat.add_zero, storeBytes_frame]
      · simp
      · intro j hj
        rw [W_eq] at hlen ⊢
        omega
    | succ i =>
      rw [show a + (i + 1) = a + 1 + i by omega, ih _ _ _ (by omega) (by omega)]
      simp

theorem readBytes_length (mem : Nat → Nat) (a n : Nat) : (readBytes mem a n).length = n := by
  simp [readBytes]

theorem readBytes_getElem (mem : Nat → Nat) (a n i : Nat) (h : i < (readBytes mem a n).length) :
    (readBytes mem a n)[i] = mem ((a + i) % W) := by
  simp [readBytes]

theorem readBytes_storeBytes (mem : Nat → Nat) (a : Nat) (bs : List Nat) (h : bs.length ≤ W) :
    readBytes (storeBytes mem a bs) a bs.length = bs := by
  apply List.ext_getElem (readBytes_length _ _ _)
  intro i h1 h2
  rw [readBytes_getElem, storeBytes_hit bs mem a i h2 h]

theorem stored_mem (m : Machine) (a : Nat) (bs : List Nat) :
    (stored m a bs).mem = storeBytes m.mem a bs := rfl

theorem stored_trace (m : Machine) (a : Nat) (bs : List Nat) :
    (stored m a bs).trace = m.trace ++ [Event.copy a bs] := rfl

theorem stored_prot (m : Machine) (a : Nat) (bs : List Nat) : (stored m a bs).prot = m.prot :=
  rfl

theorem copy_eq (m : Machine) (a : Nat) (bs : List Nat) :
    copy m (entryAddress a (bs.length : Int)) bs =
      if storable m.prot a bs = bs.length then Except.ok (stored m a bs)
      else Except.error (faultedAt m a bs) := by
  simp [copy, entryAddress]

theorem storable_le (prot : Nat → Nat) (bs : List Nat) : ∀ a, storable prot a bs ≤ bs.length := by
  induction bs with
  | nil => intro a; simp [storable]
  | cons b bs ih =>
    intro a
    simp only [storable, List.length_cons]
    split_ifs
    · have := ih (a + 1); omega
    · omega

theorem storable_eq_length (prot : Nat → Nat) (bs : List Nat) : ∀ a,
    (∀ i, i < bs.length → writable prot ((a + i) % W) = true) →
    storable prot a bs = bs.length := by
  induction bs with
  | nil => intro a _; rfl
  | cons b bs ih =>
    intro a h
    have h0 := h 0 (by simp)
    rw [Nat.add_zero] at h0
    simp only [storable, List.length_cons]
    rw [if_pos h0, ih (a + 1)]
    intro i hi
    have := h (i + 1) (by simp only [List.length_cons]; omega)
    rwa [show a + 1 + i = a + (i + 1) by omega]

theorem storable_writable (prot : Nat → Nat) (bs : List Nat) : ∀ a,
    storable prot a bs = bs.length →
    ∀ i, i < bs.length → writable prot ((a + i) % W) = true := by
  induction bs with
  | nil => intro a _ i hi; simp at hi
  | cons b bs ih =>
    intro a h i hi
    simp only [storable, List.length_cons] at h hi
    by_cases hw : writable prot (a % W) = true
    · rw [if_pos hw] at h
      cases i with
      | zero => rw [Nat.add_zero]; exact hw
      | succ i =>
        rw [show a + (i + 1) = a + 1 + i by omega]
        exact ih (a + 1) (by omega) i (by omega)
    · rw [if_neg hw] at h
      omega

/-! ## The loop of `mprotectCrossPage` -/

theorem mprotectLoop_succ (k : Kernel) (addr : Nat) (length : Int) (prot : Nat) (pageSize : Int)
    (fuel p : Nat) (m : Machine) :
    mprotectLoop k addr length prot pageSize (fuel + 1) p m =
      if p < (addr + toUintptr length) % W then
        match k.mprotectErr m p pageSize prot with
        | some e => Result.done (some e) (refuse m p pageSize prot e)
        | none => mprotectLoop k addr length prot pageSize fuel ((p + toUintptr pageSize) % W)
            (grant m p pageSize prot)
      else Result.done none m := by
  simp only [mprotectLoop, Mprotect, entryAddress]
  split_ifs with h
  · cases hk : k.mprotectErr m p pageSize prot <;> rfl
  · rfl

theorem mprotectLoop_mem (k : Kernel) (addr : Nat) (length : Int) (prot : Nat) (pageSize : Int) :
    ∀ (fuel p : Nat) (m : Machine),
      (mprotectLoop k addr length prot pageSize fuel p m).machine.mem = m.mem := by
  intro fuel
  induction fuel with
  | zero => intro p m; rfl
  | succ f ih =>
    intro p m
    rw [mprotectLoop_succ]
    split_ifs with h
    · cases hk : k.mprotectErr m p pageSize prot with
      | none => simp only; rw [ih]; rfl
      | some e => rfl
    · rfl

theorem mprotectLoop_trace (k : Kernel) (addr : Nat) (length : Int) (prot : Nat) (pageSize : Int) :
    ∀ (fuel p : Nat) (m : Machine), ∃ pages : List Nat,
      (∀ e m1, mprotectLoop k addr length prot pageSize fuel p m = Result.done (some e) m1 →
        ∃ q, m1.trace = m.trace ++ okEvents pageSize prot pages ++
          [Event.mprotect q pageSize prot (some e)]) ∧
      (∀ m1, mprotectLoop k addr length prot pageSize fuel p m = Result.done none m1 ∨
          mprotectLoop k addr length prot pageSize fuel p m = Result.running m1 →
        m1.trace = m.trace ++ okEvents pageSize prot pages) := by
  intro fuel
  induction fuel with
  | zero =>
    intro p m
    refine ⟨[], ?_, ?_⟩
    · intro e m1 h; simp [mprotectLoop] at h
    · intro m1 h
      simp only [mprotectLoop, Result.running.injEq, reduceCtorEq, false_or] at h
      subst h; simp [okEvents]
  | succ f ih =>
    intro p m
    rw [mprotectLoop_succ]
    split_ifs with h
    · cases hk : k.mprotectErr m p pageSize prot with
      | none =>
        simp only
        obtain ⟨pages, h1, h2⟩ := ih ((p + toUintptr pageSize) % W) (grant m p pageSize prot)
        refine ⟨p :: pages, ?_, ?_⟩
        · intro e m1 hr
          obtain ⟨q, hq⟩ := h1 e m1 hr
          exact ⟨q, by rw [hq]; simp [grant, okEvents]⟩
        · intro m1 hr
          rw [h2 m1 hr]; simp [grant, okEvents]
      | some e =>
        simp only
        refine ⟨[], ?_, ?_⟩
        · intro e1 m1 hr
          simp only [Result.done.injEq, Option.some.injEq] at hr
          obtain ⟨he, hm⟩ := hr
          subst he; subst hm
          exact ⟨p, by simp [refuse, okEvents]⟩
        · intro m1 hr; simp at hr
    · refine ⟨[], ?_, ?_⟩
      · intro e m1 hr; simp at hr
      · intro m1 hr
        simp only [Result.done.injEq, true_and, or_false] at hr
        subst hr; simp [okEvents]

/-! ## Runs of accepted requests -/

theorem pagesFrom_zero (p step : Nat) : pagesFrom p step 0 = [] := rfl

theorem pagesFrom_succ (p step c : Nat) :
    pagesFrom p step (c + 1) = p :: pagesFrom (p + step) step c := by
  unfold pagesFrom
  rw [List.range_succ_eq_map]
  simp only [List.map_cons, List.map_map, Nat.zero_mul, Nat.add_zero, List.cons.injEq, true_and]
  apply List.map_congr_left
  intro i _
  simp only [Function.comp_apply]
  rw [Nat.succ_mul]; omega

theorem pagesFrom_length (p step c : Nat) : (pagesFrom p step c).length = c := by
  simp [pagesFrom]

theorem grants_mem (len : Int) (step prot : Nat) : ∀ (c p : Nat) (m : Machine),
    (grants len step prot c p m).mem = m.mem := by
  intro c
  induction c with
  | zero => intro p m; rfl
  | succ c ih => intro p m; simp only [grants]; rw [ih]; rfl

theorem grants_trace (len : Int) (step prot : Nat) : ∀ (c p : Nat) (m : Machine),
    (grants len step prot c p m).trace = m.trace ++ okEvents len prot (pagesFrom p step c) := by
  intro c
  induction c with
  | zero => intro p m; simp [grants, pagesFrom_zero, okEvents]
  | succ c ih =>
    intro p m
    simp only [grants]
    rw [ih, pagesFrom_succ]
    simp [grant, okEvents]

theorem grants_prot (ps prot : Nat) : ∀ (c p : Nat) (m : Machine) (a : Nat),
    (grants (ps : Int) ps prot c p m).prot a =
      if p ≤ a ∧ a < p + c * ps then prot else m.prot a := by
  intro c
  induction c with
  | zero =>
    intro p m a
    simp only [grants, Nat.zero_mul, Nat.add_zero]
    rw [if_neg (by omega)]
  | succ c ih =>
    intro p m a
    simp only [grants]
    rw [ih]
    have e : p + (c + 1) * ps = p + ps + c * ps := by rw [Nat.succ_mul]; omega
    rw [e]
    by_cases h1 : p + ps ≤ a ∧ a < p + ps + c * ps
    · rw [if_pos h1, if_pos ⟨by omega, h1.2⟩]
    · rw [if_neg h1]
      simp only [grant]
      by_cases h2 : p ≤ a ∧ (a : Int) < (p : Int) + (ps : Int)
      · rw [if_pos h2, if_pos]
        have : a < p + ps := by omega
        have : 0 ≤ c * ps := Nat.zero_le _
        exact ⟨h2.1, by omega⟩
      · rw [if_neg h2, if_neg]
        intro h3
        apply h2
        refine ⟨h3.1, ?_⟩
        by_contra h4
        apply h1
        exact ⟨by omega, h3.2⟩

theorem mprotectLoop_run (k : Kernel) (addr : Nat) (length : Int) (prot ps b : Nat)
    (hps : ps < W) (hb : (addr + toUintptr length) % W = b) :
    ∀ (c fuel p : Nat) (m : Machine),
      (∀ i, i < c → k.mprotectErr (grants (ps : Int) ps prot i p m) (p + i * ps) ps prot = none) →
      (∀ i, i < c → p + i * ps < b) → p + c * ps < W →
      mprotectLoop k addr length prot ps (fuel + c) p m =
        mprotectLoop k addr length prot ps fuel (p + c * ps) (grants (ps : Int) ps prot c p m) := by
  intro c
  induction c with
  | zero => intro fuel p m _ _ _; simp [grants]
  | succ c ih =>
    intro fuel p m hok hlt hW
    have e : p + (c + 1) * ps = p + ps + c * ps := by rw [Nat.succ_mul]; omega
    rw [show fuel + (c + 1) = (fuel + c) + 1 by omega, mprotectLoop_succ, hb]
    have h0 := hlt 0 (by omega)
    simp only [Nat.zero_mul, Nat.add_zero] at h0
    rw [if_pos h0]
    have k0 := hok 0 (by omega)
    simp only [Nat.zero_mul, Nat.add_zero, grants] at k0
    rw [k0]
    simp only
    have hnext : (p + toUintptr (ps : Int)) % W = p + ps := by
      rw [toUintptr_of_lt hps]
      apply Nat.mod_eq_of_lt
      have : 0 ≤ c * ps := Nat.zero_le _
      omega
    rw [hnext, ih fuel (p + ps) (grant m p ps prot), e]
    · simp only [grants]
    · intro i hi
      have := hok (i + 1) (by omega)
      simp only [grants] at this
      rw [show p + ps + i * ps = p + (i + 1) * ps by rw [Nat.succ_mul]; omega]
      exact this
    · intro i hi
      have := hlt (i + 1) (by omega)
      rw [show p + ps + i * ps = p + (i + 1) * ps by rw [Nat.succ_mul]; omega]
      exact this
    · omega

theorem mprotectLoop_done_none (k : Kernel) (addr : Nat) (length : Int) (prot ps b : Nat)
    (hps : ps < W) (hb : (addr + toUintptr length) % W = b) :
    ∀ (c fuel p : Nat) (m m1 : Machine),
      (∀ i, i < c → p + i * ps < b) → b ≤ p + c * ps → p + c * ps < W →
      mprotectLoop k addr length prot ps fuel p m = Result.done none m1 →
      m1 = grants (ps : Int) ps prot c p m := by
  intro c
  induction c with
  | zero =>
    intro fuel p m m1 _ hge _ h
    simp only [Nat.zero_mul, Nat.add_zero] at hge
    cases fuel with
    | zero => simp [mprotectLoop] at h
    | succ f =>
      rw [mprotectLoop_succ, hb, if_neg (by omega)] at h
      simp only [Result.done.injEq, true_and] at h
      simp [grants, h]
  | succ c ih =>
    intro fuel p m m1 hlt hge hW h
    have e : p + (c + 1) * ps = p + ps + c * ps := by rw [Nat.succ_mul]; omega
    cases fuel with
    | zero => simp [mprotectLoop] at h
    | succ f =>
      have h0 := hlt 0 (by omega)
      simp only [Nat.zero_mul, Nat.add_zero] at h0
      rw [mprotectLoop_succ, hb, if_pos h0] at h
      cases hk : k.mprotectErr m p ps prot with
      | some e1 => rw [hk] at h; simp at h
      | none =>
        rw [hk] at h
        simp only at h
        have hnext : (p + toUintptr (ps : Int)) % W = p + ps := by
          rw [toUintptr_of_lt hps]
          apply Nat.mod_eq_of_lt
          have : 0 ≤ c * ps := Nat.zero_le _
          omega
        rw [hnext] at h
        simp only [grants]
        apply ih f (p + ps) (grant m p ps prot) m1 _ (by omega) (by omega) h
        intro i hi
        have := hlt (i + 1) (by omega)
        rw [show p + ps + i * ps = p + (i + 1) * ps by rw [Nat.succ_mul]; omega]
        exact this

theorem mprotectLoop_never_done (k : Kernel) (addr : Nat) (length : Int) (prot ps b M : Nat)
    (hps : ps < W) (hM : W = M * ps) (hb : (addr + toUintptr length) % W = b)
    (hlast : W < b + ps) :
    ∀ (fuel t : Nat) (m m1 : Machine), t < M →
      mprotectLoop k addr length prot ps fuel (t * ps) m ≠ Result.done none m1 := by
  intro fuel
  induction fuel with
  | zero => intro t m m1 _ h; simp [mprotectLoop] at h
  | succ f ih =>
    intro t m m1 ht h
    have h1 : (t + 1) * ps ≤ M * ps := Nat.mul_le_mul_right ps (by omega)
    rw [Nat.succ_mul, ← hM] at h1
    rw [mprotectLoop_succ, hb, if_pos (by omega)] at h
    cases hk : k.mprotectErr m (t * ps) ps prot with
    | some e1 => rw [hk] at h; simp at h
    | none =>
      rw [hk] at h
      simp only at h
      rw [toUintptr_of_lt hps] at h
      by_cases hlt : t + 1 < M
      · have h2 : (t + 1 + 1) * ps ≤ M * ps := Nat.mul_le_mul_right ps (by omega)
        rw [Nat.succ_mul, Nat.succ_mul, ← hM] at h2
        have hpos : 0 < ps := by
          rcases Nat.eq_zero_or_pos ps with h0 | h0
          · rw [h0, Nat.mul_zero] at hM; have := W_pos; omega
          · exact h0
        rw [Nat.mod_eq_of_lt (by omega), show t * ps + ps = (t + 1) * ps by rw [Nat.succ_mul]] at h
        exact ih (t + 1) _ m1 hlt h
      · have hM1 : t + 1 = M := by omega
        have h3 : t * ps + ps = W := by rw [hM, ← hM1, Nat.succ_mul]
        rw [h3, Nat.mod_self] at h
        have := ih 0 (grant m (t * ps) ps prot) m1 (by omega)
        rw [Nat.zero_mul] at this
        exact this h

/-! ## Page arithmetic -/

theorem pageSizeOk_facts {k : Kernel} (h : pageSizeOk k) :
    0 < k.pagesize ∧ k.pagesize ≤ 2 ^ 62 ∧ k.pagesize < W ∧ ∃ M, W = M * k.pagesize := by
  obtain ⟨j, hj, hp⟩ := h
  refine ⟨?_, ?_, ?_, ?_⟩
  · rw [hp]; exact Nat.two_pow_pos j
  · rw [hp]; exact Nat.pow_le_pow_right (by norm_num) hj
  · have : k.pagesize ≤ 2 ^ 62 := by rw [hp]; exact Nat.pow_le_pow_right (by norm_num) hj
    rw [W_eq]; norm_num at this; omega
  · refine ⟨2 ^ (64 - j), ?_⟩
    rw [hp, ← Nat.pow_add, W]
    congr 1; omega

theorem pageStart_eq (k : Kernel) (a : Nat) :
    pageStart k a = a / k.pagesize * k.pagesize := by
  unfold pageStart
  have := Nat.div_add_mod a k.pagesize
  rw [Nat.mul_comm] at this
  omega

theorem pageStart_le (k : Kernel) (a : Nat) : pageStart k a ≤ a := by
  unfold pageStart; omega

theorem lt_pageStart_add (k : Kernel) (a : Nat) (h : 0 < k.pagesize) :
    a < pageStart k a + k.pagesize := by
  unfold pageStart
  have := Nat.mod_lt a h
  omega

/-- The facts about rounding up used for the last page: with `T` the quotient of
`x + ps - 1` by `ps`, `T * ps` is the least multiple of `ps` not below `x`. -/
theorem ceil_facts (x ps : Nat) (h : 0 < ps) :
    x ≤ (x + ps - 1) / ps * ps ∧ (x + ps - 1) / ps * ps < x + ps := by
  have h1 := Nat.div_add_mod (x + ps - 1) ps
  have h2 := Nat.mod_lt (x + ps - 1) h
  rw [Nat.mul_comm] at h1
  constructor <;> omega

theorem div_le_ceil (a n ps : Nat) (h : 0 < ps) : a / ps ≤ (a + n + ps - 1) / ps :=
  Nat.div_le_div_right (by omega)

theorem loopBound_natCast (addr n : Nat) :
    (addr + toUintptr (n : Int)) % W = (addr + n) % W := by
  rw [toUintptr_natCast, Nat.add_mod_mod]

theorem touched_facts (k : Kernel) (hk : pageSizeOk k) (addr n : Nat) (ha : addr < W)
    (hfit : addr + n + k.pagesize ≤ W ∨ (W ≤ addr + n ∧ n < 2 ^ 63)) :
    (∀ i, i < touchedCount k.pagesize addr n →
        pageStart k addr + i * k.pagesize < (addr + n) % W) ∧
      (addr + n) % W ≤ pageStart k addr + touchedCount k.pagesize addr n * k.pagesize ∧
      pageStart k addr + touchedCount k.pagesize addr n * k.pagesize < W := by
  obtain ⟨hpos, hle, hlt, -⟩ := pageSizeOk_facts hk
  rcases hfit with hfit | hfit
  · have hlt2 : addr + n < W := by omega
    have hc : touchedCount k.pagesize addr n =
        (addr + n + k.pagesize - 1) / k.pagesize - addr / k.pagesize := by
      unfold touchedCount; rw [if_pos hlt2]
    rw [hc, Nat.mod_eq_of_lt hlt2, pageStart_eq]
    obtain ⟨c1, c2⟩ := ceil_facts (addr + n) k.pagesize hpos
    have hq := div_le_ceil addr n k.pagesize hpos
    generalize (addr + n + k.pagesize - 1) / k.pagesize = T at c1 c2 hq ⊢
    generalize hqd : addr / k.pagesize = q at hq ⊢
    have hsub : (T - q) * k.pagesize = T * k.pagesize - q * k.pagesize := Nat.sub_mul _ _ _
    have hmul : q * k.pagesize ≤ T * k.pagesize := Nat.mul_le_mul_right _ hq
    refine ⟨?_, by omega, by omega⟩
    intro i hi
    have h1 : (q + i + 1) * k.pagesize ≤ T * k.pagesize := Nat.mul_le_mul_right _ (by omega)
    rw [Nat.add_mul, Nat.add_mul, Nat.one_mul] at h1
    omega
  · obtain ⟨hfit, hn⟩ := hfit
    have hc : touchedCount k.pagesize addr n = 0 := by
      unfold touchedCount; rw [if_neg (by omega)]
    rw [hc]
    have hr := Nat.mod_lt addr hpos
    have hps : pageStart k addr = addr - addr % k.pagesize := rfl
    rw [W_eq] at ha hfit ⊢
    norm_num at hn hle
    refine ⟨fun i hi => absurd hi (by omega), ?_, ?_⟩ <;> omega

theorem mprotectCrossPage_run (k : Kernel) (hk : pageSizeOk k) (m : Machine) (addr n prot : Nat)
    (j fuel : Nat)
    (hlt : ∀ i, i < j → pageStart k addr + i * k.pagesize < (addr + n) % W)
    (hW : pageStart k addr + j * k.pagesize < W)
    (hok : ∀ i, i < j → k.mprotectErr
      (grants (k.pagesize : Int) k.pagesize prot i (pageStart k addr) m)
      (pageStart k addr + i * k.pagesize) k.pagesize prot = none) :
    mprotectCrossPage (fuel + j) k m addr (n : Int) prot =
      mprotectLoop k addr (n : Int) prot k.pagesize fuel (pageStart k addr + j * k.pagesize)
        (grants (k.pagesize : Int) k.pagesize prot j (pageStart k addr) m) := by
  obtain ⟨-, -, hps, -⟩ := pageSizeOk_facts hk
  unfold mprotectCrossPage Getpagesize
  exact mprotectLoop_run k addr n prot k.pagesize _ hps (loopBound_natCast addr n) j fuel _ m
    hok hlt hW

theorem mprotectCrossPage_ok (k : Kernel) (hk : pageSizeOk k) (m : Machine) (addr n prot : Nat)
    (ha : addr < W) (hfit : addr + n + k.pagesize ≤ W ∨ (W ≤ addr + n ∧ n < 2 ^ 63))
    (hok : ∀ i, i < touchedCount k.pagesize addr n → k.mprotectErr
      (grants (k.pagesize : Int) k.pagesize prot i (pageStart k addr) m)
      (pageStart k addr + i * k.pagesize) k.pagesize prot = none)
    (fuel : Nat) (hf : touchedCount k.pagesize addr n < fuel) :
    mprotectCrossPage fuel k m addr (n : Int) prot =
      Result.done none
        (grants (k.pagesize : Int) k.pagesize prot (touchedCount k.pagesize addr n)
          (pageStart k addr) m) := by
  obtain ⟨h1, h2, h3⟩ := touched_facts k hk addr n ha hfit
  obtain ⟨f, rfl⟩ : ∃ f, fuel = (f + 1) + touchedCount k.pagesize addr n :=
    ⟨fuel - touchedCount k.pagesize addr n - 1, by omega⟩
  rw [mprotectCrossPage_run k hk m addr n prot _ (f + 1) h1 h3 hok, mprotectLoop_succ,
    loopBound_natCast, if_neg (by omega)]

theorem mprotectCrossPage_fail (k : Kernel) (hk : pageSizeOk k) (m : Machine) (addr n prot : Nat)
    (hb : addr + n < W) (j e : Nat)
    (hj : pageStart k addr + j * k.pagesize < addr + n)
    (hok : ∀ i, i < j → k.mprotectErr
      (grants (k.pagesize : Int) k.pagesize prot i (pageStart k addr) m)
      (pageStart k addr + i * k.pagesize) k.pagesize prot = none)
    (hfail : k.mprotectErr
      (grants (k.pagesize : Int) k.pagesize prot j (pageStart k addr) m)
      (pageStart k addr + j * k.pagesize) k.pagesize prot = some e)
    (fuel : Nat) (hf : j < fuel) :
    mprotectCrossPage fuel k m addr (n : Int) prot =
      Result.done (some e)
        (refuse (grants (k.pagesize : Int) k.pagesize prot j (pageStart k addr) m)
          (pageStart k addr + j * k.pagesize) k.pagesize prot e) := by
  obtain ⟨f, rfl⟩ : ∃ f, fuel = (f + 1) + j := ⟨fuel - j - 1, by omega⟩
  have hlt : ∀ i, i < j → pageStart k addr + i * k.pagesize < (addr + n) % W := by
    intro i hi
    rw [Nat.mod_eq_of_lt hb]
    have : i * k.pagesize ≤ j * k.pagesize := Nat.mul_le_mul_right _ (by omega)
    omega
  rw [mprotectCrossPage_run k hk m addr n prot j (f + 1) hlt (by omega) hok, mprotectLoop_succ,
    loopBound_natCast, Nat.mod_eq_of_lt hb, if_pos hj, hfail]

theorem mprotectCrossPage_last_page (k : Kernel) (hk : pageSizeOk k) (m m1 : Machine)
    (addr n prot : Nat) (hb : addr + n < W) (hlast : W < addr + n + k.pagesize) (fuel : Nat) :
    mprotectCrossPage fuel k m addr (n : Int) prot ≠ Result.done none m1 := by
  obtain ⟨hpos, -, hps, M, hM⟩ := pageSizeOk_facts hk
  intro h
  unfold mprotectCrossPage Getpagesize at h
  rw [pageStart_eq] at h
  refine mprotectLoop_never_done k addr n prot k.pagesize _ M hps hM
    (loopBound_natCast addr n) ?_ fuel (addr / k.pagesize) m m1 ?_ h
  · rw [Nat.mod_eq_of_lt hb]; omega
  · have h1 := Nat.div_mul_le_self addr k.pagesize
    by_contra hge
    have h2 : M * k.pagesize ≤ addr / k.pagesize * k.pagesize :=
      Nat.mul_le_mul_right _ (by omega)
    omega

theorem mprotectCrossPage_done_none (k : Kernel) (hk : pageSizeOk k) (m m1 : Machine)
    (addr n prot : Nat) (hn : n < 2 ^ 63) (ha : addr < W) (fuel : Nat)
    (h : mprotectCrossPage fuel k m addr (n : Int) prot = Result.done none m1) :
    m1 = grants (k.pagesize : Int) k.pagesize prot (touchedCount k.pagesize addr n)
      (pageStart k addr) m := by
  obtain ⟨hpos, -, hps, M, hM⟩ := pageSizeOk_facts hk
  by_cases hfit : addr + n + k.pagesize ≤ W ∨ W ≤ addr + n
  · have hfit2 : addr + n + k.pagesize ≤ W ∨ (W ≤ addr + n ∧ n < 2 ^ 63) :=
      hfit.imp id (fun h0 => ⟨h0, hn⟩)
    obtain ⟨h1, h2, h3⟩ := touched_facts k hk addr n ha hfit2
    exact mprotectLoop_done_none k addr n prot k.pagesize _ hps (loopBound_natCast addr n)
      _ fuel _ m m1 h1 h2 h3 h
  · exact absurd h (mprotectCrossPage_last_page k hk m m1 addr n prot (by omega) (by omega) fuel)

/-! ## The structure of a run of `modifyBinary` -/

theorem rw_eq : PROT_READ ||| PROT_WRITE = 3 := by decide

theorem rx_eq : PROT_READ ||| PROT_EXEC = 5 := by decide

theorem emitted_eq (m m1 : Machine) (evs : List Event) (h : m1.trace = m.trace ++ evs) :
    emitted m m1 = evs := by
  unfold emitted; rw [h, List.drop_left]

theorem requestedPages_append (l1 l2 : List Event) :
    requestedPages (l1 ++ l2) = requestedPages l1 ++ requestedPages l2 := by
  induction l1 with
  | nil => rfl
  | cons e l ih => cases e <;> simp [requestedPages, ih]

theorem requestedPages_okEvents (len : Int) (prot : Nat) (pages : List Nat) :
    requestedPages (okEvents len prot pages) = pages := by
  induction pages with
  | nil => rfl
  | cons p l ih =>
    unfold okEvents at ih ⊢
    simp [requestedPages, ih]

theorem modifyBinary_cases (fuel : Nat) (k : Kernel) (m : Machine) (A : Nat) (B : List Nat) :
    ∃ pg1 : List Nat,
      (∃ m1, modifyBinary fuel k m A B = Outcome.running m1 ∧ m1.mem = m.mem ∧
        m1.trace = m.trace ++ okEvents k.pagesize (PROT_READ ||| PROT_WRITE) pg1) ∨
      (∃ m1 q e, modifyBinary fuel k m A B = Outcome.panicked e m1 ∧ m1.mem = m.mem ∧
        m1.trace = m.trace ++ okEvents k.pagesize (PROT_READ ||| PROT_WRITE) pg1 ++
          [Event.mprotect q k.pagesize (PROT_READ ||| PROT_WRITE) (some e)]) ∨
      (∃ m1 w, modifyBinary fuel k m A B = Outcome.faulted m1 ∧
        m1.mem = storeBytes m.mem A (B.take w) ∧
        m1.trace = m.trace ++ okEvents k.pagesize (PROT_READ ||| PROT_WRITE) pg1) ∨
      (∃ pg2 : List Nat,
        (∃ m1, modifyBinary fuel k m A B = Outcome.running m1 ∧
          m1.mem = storeBytes m.mem A B ∧
          m1.trace = m.trace ++ okEvents k.pagesize (PROT_READ ||| PROT_WRITE) pg1 ++
            [Event.copy A B] ++ okEvents k.pagesize (PROT_READ ||| PROT_EXEC) pg2) ∨
        (∃ m1 q e, modifyBinary fuel k m A B = Outcome.panicked e m1 ∧
          m1.mem = storeBytes m.mem A B ∧
          m1.trace = m.trace ++ okEvents k.pagesize (PROT_READ ||| PROT_WRITE) pg1 ++
            [Event.copy A B] ++ okEvents k.pagesize (PROT_READ ||| PROT_EXEC) pg2 ++
            [Event.mprotect q k.pagesize (PROT_READ ||| PROT_EXEC) (some e)]) ∨
        (∃ m1, modifyBinary fuel k m A B = Outcome.returned m1 ∧
          m1.mem = storeBytes m.mem A B ∧
          m1.trace = m.trace ++ okEvents k.pagesize (PROT_READ ||| PROT_WRITE) pg1 ++
            [Event.copy A B] ++ okEvents k.pagesize (PROT_READ ||| PROT_EXEC) pg2 ++
            [Event.sleep Millisecond])) := by
  obtain ⟨pg1, t1a, t1b⟩ := mprotectLoop_trace k A (B.length : Int) (PROT_READ ||| PROT_WRITE)
    k.pagesize fuel (pageStart k A) m
  have hm1 := mprotectLoop_mem k A (B.length : Int) (PROT_READ ||| PROT_WRITE)
    k.pagesize fuel (pageStart k A) m
  refine ⟨pg1, ?_⟩
  unfold modifyBinary
  simp only [mprotectCrossPage, Getpagesize]
  cases h1 : mprotectLoop k A (B.length : Int) (PROT_READ ||| PROT_WRITE) k.pagesize fuel
      (pageStart k A) m with
  | running m1 =>
    rw [h1] at hm1
    exact Or.inl ⟨m1, rfl, hm1, t1b m1 (Or.inr h1)⟩
  | done err m1 =>
    rw [h1] at hm1
    simp only [Result.machine] at hm1
    cases err with
    | some e =>
      obtain ⟨q, hq⟩ := t1a e m1 h1
      exact Or.inr (Or.inl ⟨m1, q, e, rfl, hm1, hq⟩)
    | none =>
      have ht1 := t1b m1 (Or.inl h1)
      simp only
      rw [copy_eq]
      by_cases hs : storable m1.prot A B = B.length
      · rw [if_pos hs]
        obtain ⟨pg2, t2a, t2b⟩ := mprotectLoop_trace k A (B.length : Int)
          (PROT_READ ||| PROT_EXEC) k.pagesize fuel (pageStart k A) (stored m1 A B)
        have hm2 := mprotectLoop_mem k A (B.length : Int) (PROT_READ ||| PROT_EXEC)
          k.pagesize fuel (pageStart k A) (stored m1 A B)
        rw [stored_mem, hm1] at hm2
        refine Or.inr (Or.inr (Or.inr ⟨pg2, ?_⟩))
        simp only
        cases h2 : mprotectLoop k A (B.length : Int) (PROT_READ ||| PROT_EXEC) k.pagesize fuel
            (pageStart k A) (stored m1 A B) with
        | running m3 =>
          rw [h2] at hm2
          refine Or.inl ⟨m3, rfl, hm2, ?_⟩
          rw [t2b m3 (Or.inr h2), stored_trace, ht1]
        | done err2 m3 =>
          rw [h2] at hm2
          simp only [Result.machine] at hm2
          cases err2 with
          | some e =>
            obtain ⟨q, hq⟩ := t2a e m3 h2
            refine Or.inr (Or.inl ⟨m3, q, e, rfl, hm2, ?_⟩)
            rw [hq, stored_trace, ht1]
          | none =>
            refine Or.inr (Or.inr ⟨_, rfl, hm2, ?_⟩)
            simp only [Sleep]
            rw [t2b m3 (Or.inl h2), stored_trace, ht1]
      · rw [if_neg hs]
        refine Or.inr (Or.inr (Or.inl ⟨_, storable m1.prot A B, rfl, ?_, ?_⟩))
        · simp only [faultedAt]; rw [hm1]
        · simp only [faultedAt]; exact ht1

theorem modifyBinary_frame (fuel : Nat) (k : Kernel) (m : Machine) (A : Nat) (B : List Nat)
    (a : Nat) (h : ∀ i, i < B.length → a ≠ (A + i) % W) :
    (modifyBinary fuel k m A B).machine.mem a = m.mem a := by
  have hs := storeBytes_frame B m.mem A a h
  obtain ⟨pg1, h1 | h1 | h1 | ⟨pg2, h1 | h1 | h1⟩⟩ := modifyBinary_cases fuel k m A B
  · obtain ⟨m1, ho, hmem, -⟩ := h1
    rw [ho]; simp only [Outcome.machine]; rw [hmem]
  · obtain ⟨m1, q, e, ho, hmem, -⟩ := h1
    rw [ho]; simp only [Outcome.machine]; rw [hmem]
  · obtain ⟨m1, w, ho, hmem, -⟩ := h1
    rw [ho]; simp only [Outcome.machine]; rw [hmem]
    apply storeBytes_frame
    intro i hi
    rw [List.length_take] at hi
    exact h i (by omega)
  · obtain ⟨m1, ho, hmem, -⟩ := h1
    rw [ho]; simp only [Outcome.machine]; rw [hmem, hs]
  · obtain ⟨m1, q, e, ho, hmem, -⟩ := h1
    rw [ho]; simp only [Outcome.machine]; rw [hmem, hs]
  · obtain ⟨m1, ho, hmem, -⟩ := h1
    rw [ho]; simp only [Outcome.machine]; rw [hmem, hs]

theorem modifyBinary_returned_mem (fuel : Nat) (k : Kernel) (m m1 : Machine) (A : Nat)
    (B : List Nat) (h : modifyBinary fuel k m A B = Outcome.returned m1) :
    m1.mem = storeBytes m.mem A B := by
  obtain ⟨pg1, h1 | h1 | h1 | ⟨pg2, h1 | h1 | h1⟩⟩ := modifyBinary_cases fuel k m A B
  · obtain ⟨m2, ho, -, -⟩ := h1; rw [ho] at h; simp at h
  · obtain ⟨m2, q, e, ho, -, -⟩ := h1; rw [ho] at h; simp at h
  · obtain ⟨m2, w, ho, -, -⟩ := h1; rw [ho] at h; simp at h
  · obtain ⟨m2, ho, -, -⟩ := h1; rw [ho] at h; simp at h
  · obtain ⟨m2, q, e, ho, -, -⟩ := h1; rw [ho] at h; simp at h
  · obtain ⟨m2, ho, hmem, -⟩ := h1
    rw [ho] at h
    simp only [Outcome.returned.injEq] at h
    rw [← h, hmem]

theorem installed_mem (k : Kernel) (m : Machine) (A : Nat) (B : List Nat) :
    (installed k m A B).mem = storeBytes m.mem A B := by
  simp only [installed, Sleep]
  rw [grants_mem, stored_mem, grants_mem]

theorem installed_trace (k : Kernel) (m : Machine) (A : Nat) (B : List Nat) :
    (installed k m A B).trace =
      m.trace ++
        (okEvents k.pagesize (PROT_READ ||| PROT_WRITE)
            (pagesFrom (pageStart k A) k.pagesize (touchedCount k.pagesize A B.length)) ++
          [Event.copy A B] ++
          okEvents k.pagesize (PROT_READ ||| PROT_EXEC)
            (pagesFrom (pageStart k A) k.pagesize (touchedCount k.pagesize A B.length)) ++
          [Event.sleep Millisecond]) := by
  simp only [installed, Sleep]
  rw [grants_trace, stored_trace, grants_trace]
  simp only [List.append_assoc]

theorem installed_prot (k : Kernel) (m : Machine) (A : Nat) (B : List Nat) (a : Nat) :
    (installed k m A B).prot a =
      if pageStart k A ≤ a ∧ a < pageStart k A + touchedCount k.pagesize A B.length * k.pagesize
      then PROT_READ ||| PROT_EXEC else m.prot a := by
  simp only [installed, Sleep]
  rw [grants_prot, stored_prot, grants_prot]
  split_ifs <;> rfl

theorem modifyBinary_returned_eq (k : Kernel) (hk : pageSizeOk k) (m m1 : Machine) (A : Nat)
    (B : List Nat) (hB : B.length < 2 ^ 63) (hA : A < W) (fuel : Nat)
    (h : modifyBinary fuel k m A B = Outcome.returned m1) : m1 = installed k m A B := by
  unfold modifyBinary at h
  simp only at h
  cases h1 : mprotectCrossPage fuel k m A (B.length : Int) (PROT_READ ||| PROT_WRITE) with
  | running m2 => rw [h1] at h; simp at h
  | done err m2 =>
    rw [h1] at h
    cases err with
    | some e => simp at h
    | none =>
      simp only at h
      have e1 := mprotectCrossPage_done_none k hk m m2 A B.length _ hB hA fuel h1
      rw [copy_eq] at h
      by_cases hs : storable m2.prot A B = B.length
      · rw [if_pos hs] at h
        simp only at h
        cases h2 : mprotectCrossPage fuel k (stored m2 A B) A
            (B.length : Int) (PROT_READ ||| PROT_EXEC) with
        | running m3 => rw [h2] at h; simp at h
        | done err2 m3 =>
          rw [h2] at h
          cases err2 with
          | some e => simp at h
          | none =>
            simp only [Outcome.returned.injEq] at h
            have e2 := mprotectCrossPage_done_none k hk _ m3 A B.length _ hB hA fuel h2
            rw [← h, e2, e1]
            rfl
      · rw [if_neg hs] at h
        simp at h

theorem grants_storable (k : Kernel) (hk : pageSizeOk k) (m : Machine) (A : Nat)
    (B : List Nat) (hfit : A + B.length + k.pagesize ≤ W) :
    storable
      (grants (k.pagesize : Int) k.pagesize (PROT_READ ||| PROT_WRITE)
        (touchedCount k.pagesize A B.length) (pageStart k A) m).prot A B = B.length := by
  obtain ⟨hpos, -, -, -⟩ := pageSizeOk_facts hk
  obtain ⟨-, h2, -⟩ := touched_facts k hk A B.length (by omega) (Or.inl hfit)
  rw [Nat.mod_eq_of_lt (by omega)] at h2
  apply storable_eq_length
  intro i hi
  have hp := pageStart_le k A
  unfold writable
  rw [Nat.mod_eq_of_lt (by omega), grants_prot, if_pos ⟨by omega, by omega⟩]
  decide

theorem modifyBinary_ok (k : Kernel) (hk : pageSizeOk k) (hall : allSucceed k) (m : Machine)
    (A : Nat) (B : List Nat) (hfit : A + B.length + k.pagesize ≤ W)
    (fuel : Nat) (hf : touchedCount k.pagesize A B.length < fuel) :
    modifyBinary fuel k m A B = Outcome.returned (installed k m A B) := by
  obtain ⟨hpos, -, -, -⟩ := pageSizeOk_facts hk
  have hA : A < W := by omega
  unfold modifyBinary
  simp only
  rw [mprotectCrossPage_ok k hk m A B.length _ hA (Or.inl hfit) (fun i _ => hall _ _ _ _)
    fuel hf]
  simp only
  rw [copy_eq, if_pos (grants_storable k hk m A B hfit)]
  simp only
  rw [mprotectCrossPage_ok k hk _ A B.length _ hA (Or.inl hfit) (fun i _ => hall _ _ _ _)
    fuel hf]
  rfl

/-! ## Lists of page starts -/

theorem pagesFrom_head (p step c : Nat) (hc : 0 < c) :
    (pagesFrom p step c).head? = some p := by
  obtain ⟨c, rfl⟩ : ∃ d, c = d + 1 := ⟨c - 1, by omega⟩
  rw [pagesFrom_succ]; rfl

theorem pagesFrom_chain (step : Nat) : ∀ (c p : Nat),
    List.Chain' (fun a b => b = a + step) (pagesFrom p step c) := by
  intro c
  induction c with
  | zero => intro p; rw [pagesFrom_zero]; exact List.chain'_nil
  | succ c ih =>
    intro p
    rw [pagesFrom_succ, List.chain'_cons']
    refine ⟨?_, ih (p + step)⟩
    intro y hy
    cases c with
    | zero => rw [pagesFrom_zero] at hy; simp at hy
    | succ c =>
      rw [pagesFrom_head _ _ _ (by omega)] at hy
      simp only [Option.mem_def, Option.some.injEq] at hy
      exact hy.symm

theorem pagesFrom_getLast (p step c : Nat) (hc : 0 < c) :
    (pagesFrom p step c).getLast? = some (p + (c - 1) * step) := by
  rw [List.getLast?_eq_getElem?, pagesFrom_length]
  simp only [pagesFrom]
  rw [List.getElem?_map, List.getElem?_range (by omega)]
  rfl

theorem touchedCount_pos (k : Kernel) (hk : pageSizeOk k) (addr n : Nat) (hn : 0 < n)
    (hfit : addr + n + k.pagesize ≤ W) : 0 < touchedCount k.pagesize addr n := by
  obtain ⟨hpos, -, -, -⟩ := pageSizeOk_facts hk
  have hc : touchedCount k.pagesize addr n =
      (addr + n + k.pagesize - 1) / k.pagesize - addr / k.pagesize := by
    unfold touchedCount; rw [if_pos (by omega)]
  rw [hc]
  obtain ⟨c1, -⟩ := ceil_facts (addr + n) k.pagesize hpos
  have h1 := Nat.div_mul_le_self addr k.pagesize
  by_contra h0
  have h2 : (addr + n + k.pagesize - 1) / k.pagesize * k.pagesize ≤
      addr / k.pagesize * k.pagesize := Nat.mul_le_mul_right _ (by omega)
  omega

theorem touchedCount_eq (k : Kernel) (hk : pageSizeOk k) (addr n : Nat) (hn : 0 < n)
    (hfit : addr + n + k.pagesize ≤ W) :
    touchedCount k.pagesize addr n = (addr + n - 1) / k.pagesize - addr / k.pagesize + 1 := by
  obtain ⟨hpos, -, -, -⟩ := pageSizeOk_facts hk
  have hc : touchedCount k.pagesize addr n =
      (addr + n + k.pagesize - 1) / k.pagesize - addr / k.pagesize := by
    unfold touchedCount; rw [if_pos (by omega)]
  rw [hc, show addr + n + k.pagesize - 1 = (addr + n - 1) + k.pagesize by omega,
    Nat.add_div_right _ hpos]
  have : addr / k.pagesize ≤ (addr + n - 1) / k.pagesize := Nat.div_le_div_right (by omega)
  omega

theorem pageSizeOk_kernelOk_4096 : pageSizeOk (kernelOk 4096) := ⟨12, by decide, by decide⟩

theorem pageSizeOk_kernelOk_16384 : pageSizeOk (kernelOk 16384) := ⟨14, by decide, by decide⟩

theorem allSucceed_kernelOk (ps : Nat) : allSucceed (kernelOk ps) := fun _ _ _ _ => rfl

/-! ## The page range of `mprotectCrossPage` -/

/-- Claim C1 (amended): for every page size that is a power of two, every address `addr`
and every length `n > 0` with `addr + n ≤ 2^64 - pagesize`, when every protection request
succeeds `mprotectCrossPage` returns `nil` and the page starts passed to `Mprotect` begin
at `pageStart(addr)`, advance by exactly the page size, and end with a page start `last`
such that `last < addr + n ≤ last + pagesize`. -/
theorem C1_page_range (k : Kernel) (m : Machine) (addr n prot : Nat) (hk : pageSizeOk k)
    (hn : 0 < n) (hfit : addr + n + k.pagesize ≤ W) (hall : allSucceed k) :
    PageRangeCorrect k m addr n prot := by
  obtain ⟨hpos, -, -, -⟩ := pageSizeOk_facts hk
  have ha : addr < W := by omega
  have hc := touchedCount_pos k hk addr n hn hfit
  obtain ⟨h1, h2, h3⟩ := touched_facts k hk addr n ha (Or.inl hfit)
  rw [Nat.mod_eq_of_lt (by omega)] at h1 h2
  have hrun := mprotectCrossPage_ok k hk m addr n prot ha (Or.inl hfit)
    (fun i _ => hall _ _ _ _) (touchedCount k.pagesize addr n + 1) (by omega)
  refine ⟨_, _, hrun, ?_⟩
  rw [emitted_eq _ _ _ (grants_trace _ _ _ _ _ _), requestedPages_okEvents]
  refine ⟨pagesFrom_head _ _ _ hc, pagesFrom_chain _ _ _, _, pagesFrom_getLast _ _ _ hc, ?_, ?_⟩
  · exact h1 _ (by omega)
  · have e : touchedCount k.pagesize addr n * k.pagesize =
        (touchedCount k.pagesize addr n - 1) * k.pagesize + k.pagesize := by
      rw [← Nat.succ_mul]; congr 1; omega
    omega

/-- Witness of C1 at page size 4096, address 4090, length 10: the hypotheses hold, and
the requests are exactly for the page starts 0 and 4096. -/
theorem C1_page_range_witness :
    PageRangeCorrect (kernelOk 4096) machine0 4090 10 (PROT_READ ||| PROT_WRITE) ∧
      requestedPages (emitted machine0
        (mprotectCrossPage 3 (kernelOk 4096) machine0 4090 10
          (PROT_READ ||| PROT_WRITE)).machine) = [0, 4096] :=
  ⟨C1_page_range (kernelOk 4096) machine0 4090 10 (PROT_READ ||| PROT_WRITE)
      ⟨12, by decide, by decide⟩ (by decide) (by decide) (fun _ _ _ _ => rfl),
    by decide⟩

/-- Claim C1 as stated fails when `addr + n` wraps around: at page size 4096, address
`2^64 - 10` and length 20, with every request accepted, the call returns `nil` without
any request, so the sequence of page starts is empty and does not start at
`pageStart(addr)`. -/
theorem C1_counterexample :
    (∀ fuel, mprotectCrossPage (fuel + 1) (kernelOk 4096) machine0 (2 ^ 64 - 10) (20 : Nat)
        (PROT_READ ||| PROT_WRITE) = Result.done none machine0) ∧
      ¬ PageRangeCorrect (kernelOk 4096) machine0 (2 ^ 64 - 10) 20
        (PROT_READ ||| PROT_WRITE) := by
  constructor
  · intro fuel
    unfold mprotectCrossPage
    rw [mprotectLoop_succ, loopBound_natCast, if_neg (by decide)]
  · rintro ⟨fuel, m1, h, hhead, -⟩
    have e := mprotectCrossPage_done_none (kernelOk 4096) pageSizeOk_kernelOk_4096 machine0 m1
      (2 ^ 64 - 10) 20 (PROT_READ ||| PROT_WRITE) (by norm_num) (by decide) fuel h
    have hc : touchedCount (kernelOk 4096).pagesize (2 ^ 64 - 10) 20 = 0 := by decide
    rw [hc] at e
    subst e
    revert hhead
    decide

/-! ## The number of pages -/

theorem aligned_count (addr ps : Nat) (hpos : 0 < ps) (hal : addr % ps = 0) :
    (addr + ps - 1) / ps - addr / ps + 1 = 1 := by
  have h1 := Nat.div_add_mod addr ps
  rw [hal, Nat.add_zero, Nat.mul_comm] at h1
  have h2 : (addr + ps - 1) / ps = addr / ps := by
    apply Nat.div_eq_of_lt_le
    · omega
    · rw [Nat.succ_mul]; omega
  rw [h2]; omega

theorem straddle_count (addr ps : Nat) (hps : 4 ≤ ps) (hst : (addr + 4) % ps = 0) :
    (addr + 8 - 1) / ps - addr / ps + 1 = 2 := by
  have hpos : 0 < ps := by omega
  have h1 := Nat.div_add_mod (addr + 4) ps
  rw [hst, Nat.add_zero] at h1
  have h2 := Nat.div_add_mod addr ps
  have h3 := Nat.mod_lt addr hpos
  generalize (addr + 4) / ps = t at h1
  generalize addr / ps = q at h2 ⊢
  have hqt : q < t := by
    apply Nat.lt_of_mul_lt_mul_left (a := ps)
    omega
  have htq : t < q + 2 := by
    apply Nat.lt_of_mul_lt_mul_left (a := ps)
    rw [Nat.mul_add]
    omega
  have ht : t = q + 1 := by omega
  subst ht
  rw [Nat.mul_succ] at h1
  have h4 : (addr + 8 - 1) / ps = q + 1 := by
    apply Nat.div_eq_of_lt_le
    · have hc : ps * q = q * ps := Nat.mul_comm _ _
      rw [Nat.succ_mul]; omega
    · have hc : ps * q = q * ps := Nat.mul_comm _ _
      rw [Nat.succ_mul, Nat.succ_mul]; omega
  rw [h4]; omega

/-- Claim C7 (amended): for every page size that is a power of two, every address `addr`
and every length `n > 0` with `addr + n ≤ 2^64 - pagesize`, when every request succeeds
`mprotectCrossPage` returns `nil` after exactly
`(addr + n - 1) / pagesize - addr / pagesize + 1` requests, the number of pages meeting
`[addr, addr + n)`; in particular one request for a page-aligned region of one page, and
two requests for a region of length 8 that begins 4 bytes before a page boundary. -/
theorem C7_page_count (k : Kernel) (m : Machine) (addr n prot : Nat) (hk : pageSizeOk k)
    (hn : 0 < n) (hfit : addr + n + k.pagesize ≤ W) (hall : allSucceed k) :
    ∃ fuel m1, mprotectCrossPage fuel k m addr (n : Int) prot = Result.done none m1 ∧
      (requestedPages (emitted m m1)).length =
        (addr + n - 1) / k.pagesize - addr / k.pagesize + 1 ∧
      (addr % k.pagesize = 0 → n = k.pagesize →
        (requestedPages (emitted m m1)).length = 1) ∧
      ((addr + 4) % k.pagesize = 0 → 4 ≤ k.pagesize → n = 8 →
        (requestedPages (emitted m m1)).length = 2) := by
  obtain ⟨hpos, -, -, -⟩ := pageSizeOk_facts hk
  have ha : addr < W := by omega
  have hrun := mprotectCrossPage_ok k hk m addr n prot ha (Or.inl hfit)
    (fun i _ => hall _ _ _ _) (touchedCount k.pagesize addr n + 1) (by omega)
  refine ⟨_, _, hrun, ?_⟩
  rw [emitted_eq _ _ _ (grants_trace _ _ _ _ _ _), requestedPages_okEvents, pagesFrom_length,
    touchedCount_eq k hk addr n hn hfit]
  refine ⟨rfl, ?_, ?_⟩
  · intro hal hnp
    rw [hnp]
    exact aligned_count addr k.pagesize hpos hal
  · intro hst h4 hn8
    rw [hn8]
    exact straddle_count addr k.pagesize h4 hst

/-- Witness of C7 at page size 4096 for the region of length 8 that begins at 4092, four
bytes before the page boundary 4096. -/
theorem C7_page_count_witness :
    ∃ fuel m1, mprotectCrossPage fuel (kernelOk 4096) machine0 4092 ((8 : Nat) : Int)
        (PROT_READ ||| PROT_WRITE) = Result.done none m1 ∧
      (requestedPages (emitted machine0 m1)).length =
        (4092 + 8 - 1) / (kernelOk 4096).pagesize - 4092 / (kernelOk 4096).pagesize + 1 ∧
      (4092 % (kernelOk 4096).pagesize = 0 → 8 = (kernelOk 4096).pagesize →
        (requestedPages (emitted machine0 m1)).length = 1) ∧
      ((4092 + 4) % (kernelOk 4096).pagesize = 0 → 4 ≤ (kernelOk 4096).pagesize → 8 = 8 →
        (requestedPages (emitted machine0 m1)).length = 2) :=
  C7_page_count (kernelOk 4096) machine0 4092 8 (PROT_READ ||| PROT_WRITE)
    ⟨12, by decide, by decide⟩ (by decide) (by decide) (fun _ _ _ _ => rfl)

/-- Claim C7 as stated fails for a region in the last page of the address space: at page
size 4096, address `2^64 - 4096` and length 1 the sum `addr + n` does not overflow, yet
with every request accepted the loop variable wraps around to 0 below the bound and the
call never returns: after `fuel` iterations it has issued `fuel` requests and is still
running, so no run makes exactly the one request the formula gives. -/
theorem C7_counterexample :
    2 ^ 64 - 4096 + 1 < 2 ^ 64 ∧
      (2 ^ 64 - 4096 + 1 - 1) / 4096 - (2 ^ 64 - 4096) / 4096 + 1 = 1 ∧
      requestedPages (emitted machine0
        (mprotectCrossPage 3 (kernelOk 4096) machine0 (2 ^ 64 - 4096) ((1 : Nat) : Int)
          (PROT_READ ||| PROT_WRITE)).machine) = [2 ^ 64 - 4096, 0, 4096] ∧
      ¬ PageCountCorrect (kernelOk 4096) machine0 (2 ^ 64 - 4096) 1
        (PROT_READ ||| PROT_WRITE) := by
  refine ⟨by decide, by decide, by decide, ?_⟩
  rintro ⟨fuel, m1, h, -⟩
  exact mprotectCrossPage_last_page (kernelOk 4096) pageSizeOk_kernelOk_4096 machine0 m1
    (2 ^ 64 - 4096) 1 (PROT_READ ||| PROT_WRITE) (by decide) (by decide) fuel h

/-! ## Overflow of the loop bound -/

/-- Claim C10 (amended): the loop bound `addr + uintptr(length)` of `mprotectCrossPage`
wraps around modulo `2^64` and does not saturate: when `addr + n ≥ 2^64` (for a machine
word `addr`, a length `0 ≤ n < 2^63` and a page size that is a power of two), the bound
is `addr + n - 2^64`, which is not above `pageStart(addr)`, so the loop ends at once:
the call returns `nil` in the state it started from, with no page produced and no
request made, whatever the kernel would answer. -/
theorem C10_bound_wraps (k : Kernel) (m : Machine) (addr n prot : Nat) (hk : pageSizeOk k)
    (ha : addr < W) (hn : n < 2 ^ 63) (hov : W ≤ addr + n) :
    (addr + toUintptr (n : Int)) % W = addr + n - W ∧
      addr + n - W ≤ pageStart k addr ∧
      ∀ fuel, mprotectCrossPage (fuel + 1) k m addr (n : Int) prot = Result.done none m := by
  obtain ⟨-, h2, -⟩ := touched_facts k hk addr n ha (Or.inr ⟨hov, hn⟩)
  have hc : touchedCount k.pagesize addr n = 0 := by
    unfold touchedCount; rw [if_neg (by omega)]
  rw [hc, Nat.zero_mul, Nat.add_zero] at h2
  have hb : (addr + n) % W = addr + n - W := by
    rw [W_eq] at ha hov ⊢
    norm_num at hn
    omega
  rw [hb] at h2
  refine ⟨by rw [loopBound_natCast, hb], h2, ?_⟩
  intro fuel
  unfold mprotectCrossPage
  rw [mprotectLoop_succ, loopBound_natCast, hb, if_neg (by omega)]

/-- Witness of C10 at page size 4096, address `2^64 - 4090` and length 8000. -/
theorem C10_bound_wraps_witness :
    (2 ^ 64 - 4090 + toUintptr ((8000 : Nat) : Int)) % W = 2 ^ 64 - 4090 + 8000 - W ∧
      2 ^ 64 - 4090 + 8000 - W ≤ pageStart (kernelOk 4096) (2 ^ 64 - 4090) ∧
      ∀ fuel, mprotectCrossPage (fuel + 1) (kernelOk 4096) machine0 (2 ^ 64 - 4090)
        ((8000 : Nat) : Int) (PROT_READ ||| PROT_EXEC) = Result.done none machine0 :=
  C10_bound_wraps (kernelOk 4096) machine0 (2 ^ 64 - 4090) 8000 (PROT_READ ||| PROT_EXEC)
    ⟨12, by decide, by decide⟩ (by decide) (by decide) (by decide)

/-- Claim C10 as stated fails: at page size 16384, address `2^64 - 1` and length 2 the
loop bound is 1 (the sum wrapped around), not the maximum address, and with every
request accepted the call returns `nil` without requesting the page `2^64 - 16384` that
a saturating bound would still produce. -/
theorem C10_counterexample :
    (2 ^ 64 - 1 + toUintptr ((2 : Nat) : Int)) % W = 1 ∧
      pagesFrom (pageStart (kernelOk 16384) (2 ^ 64 - 1)) 16384
        ((W - pageStart (kernelOk 16384) (2 ^ 64 - 1)) / 16384) = [2 ^ 64 - 16384] ∧
      ¬ SaturatesToTop (kernelOk 16384) machine0 (2 ^ 64 - 1) 2
        (PROT_READ ||| PROT_WRITE) := by
  refine ⟨by rw [loopBound_natCast]; decide, by decide, ?_⟩
  rintro ⟨fuel, m1, h, hp⟩
  have e := mprotectCrossPage_done_none (kernelOk 16384) pageSizeOk_kernelOk_16384 machine0 m1
    (2 ^ 64 - 1) 2 (PROT_READ ||| PROT_WRITE) (by norm_num) (by decide) fuel h
  have hc : touchedCount (kernelOk 16384).pagesize (2 ^ 64 - 1) 2 = 0 := by decide
  rw [hc] at e
  subst e
  revert hp
  decide

/-! ## Memory after `modifyBinary` -/

theorem storeBytes_cases (mem : Nat → Nat) (A : Nat) (B : List Nat) (hB : B.length ≤ W)
    (x : Nat) :
    (∃ i, ∃ h : i < B.length, x = (A + i) % W ∧ storeBytes mem A B x = B[i]) ∨
      ((∀ i, i < B.length → x ≠ (A + i) % W) ∧ storeBytes mem A B x = mem x) := by
  by_cases h : ∃ i, i < B.length ∧ x = (A + i) % W
  · obtain ⟨i, hi, hx⟩ := h
    exact Or.inl ⟨i, hi, hx, by rw [hx, storeBytes_hit B mem A i hi hB]⟩
  · have h1 : ∀ i, i < B.length → x ≠ (A + i) % W := fun i hi hx => h ⟨i, hi, hx⟩
    exact Or.inr ⟨h1, storeBytes_frame B mem A x h1⟩

theorem storeBytes_restore (mem : Nat → Nat) (A : Nat) (B : List Nat) (hB : B.length ≤ W)
    (x : Nat) :
    storeBytes (storeBytes mem A B) A (readBytes mem A B.length) x = mem x := by
  have hl : (readBytes mem A B.length).length = B.length := readBytes_length _ _ _
  rcases storeBytes_cases (storeBytes mem A B) A (readBytes mem A B.length)
    (by rw [hl]; exact hB) x with ⟨i, hi, hx, hv⟩ | ⟨hno, hv⟩
  · rw [hv, readBytes_getElem, hx]
  · rw [hv]
    rw [hl] at hno
    exact storeBytes_frame B mem A x hno

theorem storeBytes_twice (mem : Nat → Nat) (A : Nat) (B : List Nat) (hB : B.length ≤ W)
    (x : Nat) : storeBytes (storeBytes mem A B) A B x = storeBytes mem A B x := by
  rcases storeBytes_cases (storeBytes mem A B) A B hB x with ⟨i, hi, hx, hv⟩ | ⟨-, hv⟩
  · rw [hv, hx, storeBytes_hit B mem A i hi hB]
  · exact hv

theorem two_pow_63_le_W {n : Nat} (h : n < 2 ^ 63) : n ≤ W := by
  rw [W_eq]; norm_num at h; omega

/-- Claim C2: for every target address `A` and byte sequence `B`, whenever
`modifyBinary(A, B)` returns, reading `len(B)` bytes of memory starting at `A` gives
exactly `B`; and when every protection change succeeds and the region ends at least one
page below the top of the address space, the call does return, with that memory. -/
theorem C2_write_round_trip (k : Kernel) (m : Machine) (A : Nat) (B : List Nat)
    (hk : pageSizeOk k) (_hA : A < W) (hB : B.length < 2 ^ 63) :
    (∀ fuel m1, modifyBinary fuel k m A B = Outcome.returned m1 →
        readBytes m1.mem A B.length = B) ∧
      (allSucceed k → A + B.length + k.pagesize ≤ W →
        ∃ fuel m1, modifyBinary fuel k m A B = Outcome.returned m1 ∧
          readBytes m1.mem A B.length = B) := by
  have hread : ∀ fuel m1, modifyBinary fuel k m A B = Outcome.returned m1 →
      readBytes m1.mem A B.length = B := by
    intro fuel m1 h
    rw [modifyBinary_returned_mem fuel k m m1 A B h]
    exact readBytes_storeBytes m.mem A B (two_pow_63_le_W hB)
  refine ⟨hread, ?_⟩
  intro hall hfit
  have hrun := modifyBinary_ok k hk hall m A B hfit
    (touchedCount k.pagesize A B.length + 1) (by omega)
  exact ⟨_, _, hrun, hread _ _ hrun⟩

/-- Witness of C2: ten bytes installed at address 4090, across the page boundary 4096. -/
theorem C2_write_round_trip_witness :
    ∃ fuel m1, modifyBinary fuel (kernelOk 4096) machine0 4090
        [1, 2, 3, 4, 5, 6, 7, 8, 9, 10] = Outcome.returned m1 ∧
      readBytes m1.mem 4090 [1, 2, 3, 4, 5, 6, 7, 8, 9, 10].length =
        [1, 2, 3, 4, 5, 6, 7, 8, 9, 10] :=
  (C2_write_round_trip (kernelOk 4096) machine0 4090 [1, 2, 3, 4, 5, 6, 7, 8, 9, 10]
    ⟨12, by decide, by decide⟩ (by decide) (by decide)).2 (fun _ _ _ _ => rfl) (by decide)

/-- Claim C3: `modifyBinary(A, B)` writes only the `len(B)` bytes of the destination:
at whatever point the call stands (returned, panicked or still running), every memory
byte at an address that is not one of the `len(B)` addresses of the destination has the
value it had before the call; for a region inside the address space these are the
addresses outside `[A, A + len(B))`. -/
theorem C3_write_frame (fuel : Nat) (k : Kernel) (m : Machine) (A : Nat) (B : List Nat)
    (a : Nat) :
    ((∀ i, i < B.length → a ≠ (A + i) % W) →
        (modifyBinary fuel k m A B).machine.mem a = m.mem a) ∧
      (A + B.length ≤ W → (a < A ∨ A + B.length ≤ a) →
        (modifyBinary fuel k m A B).machine.mem a = m.mem a) := by
  refine ⟨modifyBinary_frame fuel k m A B a, ?_⟩
  intro hW ha
  apply modifyBinary_frame
  intro i hi
  rw [Nat.mod_eq_of_lt (by omega)]
  omega

/-- Witness of C3: after ten bytes are installed at 4090, the byte at 4100, just past
the region, is unchanged, in a run that returns and in one that panics. -/
theorem C3_write_frame_witness :
    (4090 + [1, 2, 3, 4, 5, 6, 7, 8, 9, 10].length ≤ W ∧ (4100 < 4090 ∨ 4090 + 10 ≤ 4100)) ∧
      (modifyBinary 3 (kernelOk 4096) machine0 4090
        [1, 2, 3, 4, 5, 6, 7, 8, 9, 10]).machine.mem 4100 = machine0.mem 4100 ∧
      (modifyBinary 3 (kernelFailing 4096 4096 (PROT_READ ||| PROT_EXEC) 13) machine0 4090
        [1, 2, 3, 4, 5, 6, 7, 8, 9, 10]).machine.mem 4100 = machine0.mem 4100 :=
  ⟨⟨by decide, by decide⟩,
    (C3_write_frame 3 (kernelOk 4096) machine0 4090 [1, 2, 3, 4, 5, 6, 7, 8, 9, 10] 4100).2
      (by decide) (by decide),
    (C3_write_frame 3 (kernelFailing 4096 4096 (PROT_READ ||| PROT_EXEC) 13) machine0 4090
      [1, 2, 3, 4, 5, 6, 7, 8, 9, 10] 4100).2 (by decide) (by decide)⟩

/-- Claim C5: for every memory state, address `A` and byte sequence `B`, with `O` the
`len(B)` bytes of the original memory at `A`: whenever `modifyBinary(A, B)` returns and
then `modifyBinary(A, O)` returns, every byte of memory, in the region and everywhere
else, has its original value; and when every protection change succeeds and the region
ends at least one page below the top of the address space, both calls do return. -/
theorem C5_restore (k : Kernel) (m : Machine) (A : Nat) (B : List Nat)
    (hk : pageSizeOk k) (_hA : A < W) (hB : B.length < 2 ^ 63) :
    (∀ fuel1 fuel2 m1 m2, modifyBinary fuel1 k m A B = Outcome.returned m1 →
        modifyBinary fuel2 k m1 A (readBytes m.mem A B.length) = Outcome.returned m2 →
        ∀ a, m2.mem a = m.mem a) ∧
      (allSucceed k → A + B.length + k.pagesize ≤ W →
        ∃ fuel m1 m2, modifyBinary fuel k m A B = Outcome.returned m1 ∧
          modifyBinary fuel k m1 A (readBytes m.mem A B.length) = Outcome.returned m2 ∧
          ∀ a, m2.mem a = m.mem a) := by
  have hmem : ∀ fuel1 fuel2 m1 m2, modifyBinary fuel1 k m A B = Outcome.returned m1 →
      modifyBinary fuel2 k m1 A (readBytes m.mem A B.length) = Outcome.returned m2 →
      ∀ a, m2.mem a = m.mem a := by
    intro fuel1 fuel2 m1 m2 h1 h2 a
    rw [modifyBinary_returned_mem _ _ _ _ _ _ h2, modifyBinary_returned_mem _ _ _ _ _ _ h1]
    exact storeBytes_restore m.mem A B (two_pow_63_le_W hB) a
  refine ⟨hmem, ?_⟩
  intro hall hfit
  have hl : (readBytes m.mem A B.length).length = B.length := readBytes_length _ _ _
  have hrun1 := modifyBinary_ok k hk hall m A B hfit
    (touchedCount k.pagesize A B.length + 1) (by omega)
  have hrun2 := modifyBinary_ok k hk hall (installed k m A B) A (readBytes m.mem A B.length)
    (by rw [hl]; exact hfit)
    (touchedCount k.pagesize A B.length + 1) (by rw [hl]; omega)
  exact ⟨_, _, _, hrun1, hrun2, hmem _ _ _ _ hrun1 hrun2⟩

/-- Witness of C5: four bytes installed at 4094 over a memory of zeros, then the saved
zeros installed back. -/
theorem C5_restore_witness :
    ∃ fuel m1 m2, modifyBinary fuel (kernelOk 4096) machine0 4094 [7, 8, 9, 10] =
        Outcome.returned m1 ∧
      modifyBinary fuel (kernelOk 4096) m1 4094
        (readBytes machine0.mem 4094 [7, 8, 9, 10].length) = Outcome.returned m2 ∧
      ∀ a, m2.mem a = machine0.mem a :=
  (C5_restore (kernelOk 4096) machine0 4094 [7, 8, 9, 10]
    ⟨12, by decide, by decide⟩ (by decide) (by decide)).2 (fun _ _ _ _ => rfl) (by decide)

/-- Claim C6: for every memory state, address `A` and byte sequence `B`, whenever
`modifyBinary(A, B)` returns and a second `modifyBinary(A, B)` then returns, the second
call leaves every byte of memory and the protection flags at every address as the first
call left them; and when every protection change succeeds and the region ends at least
one page below the top of the address space, both calls do return. -/
theorem C6_idempotent (k : Kernel) (m : Machine) (A : Nat) (B : List Nat)
    (hk : pageSizeOk k) (hA : A < W) (hB : B.length < 2 ^ 63) :
    (∀ fuel1 fuel2 m1 m2, modifyBinary fuel1 k m A B = Outcome.returned m1 →
        modifyBinary fuel2 k m1 A B = Outcome.returned m2 →
        (∀ a, m2.mem a = m1.mem a) ∧ (∀ a, m2.prot a = m1.prot a)) ∧
      (allSucceed k → A + B.length + k.pagesize ≤ W →
        ∃ fuel m1 m2, modifyBinary fuel k m A B = Outcome.returned m1 ∧
          modifyBinary fuel k m1 A B = Outcome.returned m2 ∧
          (∀ a, m2.mem a = m1.mem a) ∧ (∀ a, m2.prot a = m1.prot a)) := by
  have hsame : ∀ fuel1 fuel2 m1 m2, modifyBinary fuel1 k m A B = Outcome.returned m1 →
      modifyBinary fuel2 k m1 A B = Outcome.returned m2 →
      (∀ a, m2.mem a = m1.mem a) ∧ (∀ a, m2.prot a = m1.prot a) := by
    intro fuel1 fuel2 m1 m2 h1 h2
    constructor
    · intro a
      rw [modifyBinary_returned_mem _ _ _ _ _ _ h2, modifyBinary_returned_mem _ _ _ _ _ _ h1]
      exact storeBytes_twice m.mem A B (two_pow_63_le_W hB) a
    · intro a
      rw [modifyBinary_returned_eq k hk m1 m2 A B hB hA fuel2 h2, installed_prot,
        modifyBinary_returned_eq k hk m m1 A B hB hA fuel1 h1, installed_prot]
      split_ifs <;> rfl
  refine ⟨hsame, ?_⟩
  intro hall hfit
  have hrun1 := modifyBinary_ok k hk hall m A B hfit
    (touchedCount k.pagesize A B.length + 1) (by omega)
  have hrun2 := modifyBinary_ok k hk hall (installed k m A B) A B hfit
    (touchedCount k.pagesize A B.length + 1) (by omega)
  exact ⟨_, _, _, hrun1, hrun2, hsame _ _ _ _ hrun1 hrun2⟩

/-- Witness of C6: four bytes installed twice at 4094. -/
theorem C6_idempotent_witness :
    ∃ fuel m1 m2, modifyBinary fuel (kernelOk 4096) machine0 4094 [7, 8, 9, 10] =
        Outcome.returned m1 ∧
      modifyBinary fuel (kernelOk 4096) m1 4094 [7, 8, 9, 10] = Outcome.returned m2 ∧
      (∀ a, m2.mem a = m1.mem a) ∧ (∀ a, m2.prot a = m1.prot a) :=
  (C6_idempotent (kernelOk 4096) machine0 4094 [7, 8, 9, 10]
    ⟨12, by decide, by decide⟩ (by decide) (by decide)).2 (fun _ _ _ _ => rfl) (by decide)

/-! ## The failure of a grant-write request -/

theorem not_mem_okEvents_some (len : Int) (prot : Nat) (pages : List Nat) (q : Nat) (l : Int)
    (p e : Nat) : Event.mprotect q l p (some e) ∉ okEvents len prot pages := by
  simp [okEvents]

theorem not_mem_okEvents_copy (len : Int) (prot : Nat) (pages : List Nat) (d : Nat)
    (bs : List Nat) : Event.copy d bs ∉ okEvents len prot pages := by
  simp [okEvents]

theorem not_mem_okEvents_sleep (len : Int) (prot : Nat) (pages : List Nat) (d : Nat) :
    Event.sleep d ∉ okEvents len prot pages := by
  simp [okEvents]

theorem rw_ne_rx : PROT_READ ||| PROT_WRITE ≠ PROT_READ ||| PROT_EXEC := by decide

/-- Claim C4: in every run of `modifyBinary(A, B)` in which a read+write request fails,
the call panics with the error of that request, the failed request is the last event of
the run (no further request is made) and no copy happens: memory is what it was before
the call. Such a run happens for every page touched by `[A, A + len(B))` (region below
the top of the address space): if the kernel accepts the read+write requests for the
pages before it and refuses the one for that page with error `e`, then with enough fuel
the call panics with `e` after exactly those requests. -/
theorem C4_fatal_before_copy (k : Kernel) (m : Machine) (A : Nat) (B : List Nat)
    (hk : pageSizeOk k) :
    (∀ fuel q l e,
        Event.mprotect q l (PROT_READ ||| PROT_WRITE) (some e) ∈
          emitted m (modifyBinary fuel k m A B).machine →
        ∃ m1, modifyBinary fuel k m A B = Outcome.panicked e m1 ∧ (∀ a, m1.mem a = m.mem a) ∧
          (emitted m m1).getLast? =
            some (Event.mprotect q l (PROT_READ ||| PROT_WRITE) (some e)) ∧
          ∀ d bs, Event.copy d bs ∉ emitted m m1) ∧
      (∀ j e, A + B.length < W → pageStart k A + j * k.pagesize < A + B.length →
        (∀ s i, i < j → k.mprotectErr s (pageStart k A + i * k.pagesize) k.pagesize
          (PROT_READ ||| PROT_WRITE) = none) →
        (∀ s, k.mprotectErr s (pageStart k A + j * k.pagesize) k.pagesize
          (PROT_READ ||| PROT_WRITE) = some e) →
        ∀ fuel, j < fuel →
          ∃ m1, modifyBinary fuel k m A B = Outcome.panicked e m1 ∧
            (∀ a, m1.mem a = m.mem a) ∧
            emitted m m1 =
              okEvents k.pagesize (PROT_READ ||| PROT_WRITE)
                (pagesFrom (pageStart k A) k.pagesize j) ++
              [Event.mprotect (pageStart k A + j * k.pagesize) k.pagesize
                (PROT_READ ||| PROT_WRITE) (some e)]) := by
  constructor
  · intro fuel q l e hmem
    obtain ⟨pg1, h1 | h1 | h1 | ⟨pg2, h1 | h1 | h1⟩⟩ := modifyBinary_cases fuel k m A B
    · obtain ⟨m1, ho, -, ht⟩ := h1
      rw [ho] at hmem
      simp only [Outcome.machine] at hmem
      rw [emitted_eq m m1 _ ht] at hmem
      exact absurd hmem (not_mem_okEvents_some _ _ _ _ _ _ _)
    · obtain ⟨m1, q1, e1, ho, hm, ht⟩ := h1
      rw [List.append_assoc] at ht
      have he := emitted_eq m m1 _ ht
      rw [ho] at hmem
      simp only [Outcome.machine] at hmem
      rw [he] at hmem
      rcases List.mem_append.1 hmem with hmem | hmem
      · exact absurd hmem (not_mem_okEvents_some _ _ _ _ _ _ _)
      · simp only [List.mem_singleton, Event.mprotect.injEq, Option.some.injEq] at hmem
        obtain ⟨hq, hl, -, hee⟩ := hmem
        subst hq; subst hl; subst hee
        refine ⟨m1, ho, fun a => by rw [hm], ?_, ?_⟩
        · rw [he]; simp
        · intro d bs hc
          rw [he] at hc
          rcases List.mem_append.1 hc with hc | hc
          · exact absurd hc (not_mem_okEvents_copy _ _ _ _ _)
          · simp at hc
    · obtain ⟨m1, w, ho, -, ht⟩ := h1
      rw [ho] at hmem
      simp only [Outcome.machine] at hmem
      rw [emitted_eq m m1 _ ht] at hmem
      exact absurd hmem (not_mem_okEvents_some _ _ _ _ _ _ _)
    · obtain ⟨m1, ho, -, ht⟩ := h1
      rw [List.append_assoc, List.append_assoc] at ht
      rw [ho] at hmem
      simp only [Outcome.machine] at hmem
      rw [emitted_eq m m1 _ ht] at hmem
      simp [okEvents] at hmem
    · obtain ⟨m1, q1, e1, ho, -, ht⟩ := h1
      rw [List.append_assoc, List.append_assoc, List.append_assoc] at ht
      rw [ho] at hmem
      simp only [Outcome.machine] at hmem
      rw [emitted_eq m m1 _ ht] at hmem
      simp [okEvents, rw_ne_rx] at hmem
    · obtain ⟨m1, ho, -, ht⟩ := h1
      rw [List.append_assoc, List.append_assoc, List.append_assoc] at ht
      rw [ho] at hmem
      simp only [Outcome.machine] at hmem
      rw [emitted_eq m m1 _ ht] at hmem
      simp [okEvents] at hmem
  · intro j e hb hj hok hfail fuel hf
    have hrun := mprotectCrossPage_fail k hk m A B.length (PROT_READ ||| PROT_WRITE) hb j e hj
      (fun i hi => hok _ i hi) (hfail _) fuel hf
    have ho : modifyBinary fuel k m A B = Outcome.panicked e
        (refuse (grants (k.pagesize : Int) k.pagesize (PROT_READ ||| PROT_WRITE) j
          (pageStart k A) m) (pageStart k A + j * k.pagesize) k.pagesize
          (PROT_READ ||| PROT_WRITE) e) := by
      unfold modifyBinary
      simp only
      rw [hrun]
    refine ⟨_, ho, ?_, ?_⟩
    · intro a
      simp only [refuse]
      rw [grants_mem]
    · apply emitted_eq
      simp only [refuse]
      rw [grants_trace, List.append_assoc]

/-- Witness of C4: ten bytes at 4090 touch the pages 0 and 4096; the kernel refuses
read+write on page 4096 with error 13 and the call panics with 13, memory unchanged. -/
theorem C4_fatal_before_copy_witness :
    ∃ m1, modifyBinary 3 (kernelFailing 4096 4096 (PROT_READ ||| PROT_WRITE) 13) machine0 4090
        [1, 2, 3, 4, 5, 6, 7, 8, 9, 10] = Outcome.panicked 13 m1 ∧
      (∀ a, m1.mem a = machine0.mem a) ∧
      emitted machine0 m1 =
        okEvents (kernelFailing 4096 4096 (PROT_READ ||| PROT_WRITE) 13).pagesize
            (PROT_READ ||| PROT_WRITE)
            (pagesFrom (pageStart (kernelFailing 4096 4096 (PROT_READ ||| PROT_WRITE) 13) 4090)
              (kernelFailing 4096 4096 (PROT_READ ||| PROT_WRITE) 13).pagesize 1) ++
          [Event.mprotect
            (pageStart (kernelFailing 4096 4096 (PROT_READ ||| PROT_WRITE) 13) 4090 +
              1 * (kernelFailing 4096 4096 (PROT_READ ||| PROT_WRITE) 13).pagesize)
            (kernelFailing 4096 4096 (PROT_READ ||| PROT_WRITE) 13).pagesize
            (PROT_READ ||| PROT_WRITE) (some 13)] :=
  (C4_fatal_before_copy (kernelFailing 4096 4096 (PROT_READ ||| PROT_WRITE) 13) machine0 4090
    [1, 2, 3, 4, 5, 6, 7, 8, 9, 10] ⟨12, by decide, by decide⟩).2 1 13 (by decide) (by decide)
    (fun _ i hi => by
      have h0 : i = 0 := by omega
      subst h0
      rfl)
    (fun _ => rfl) 3 (by decide)

/-! ## Protection flags -/

theorem mem_okEvents_prot (len : Int) (prot : Nat) (pages : List Nat) (a : Nat) (l : Int)
    (p : Nat) (r : Option Nat) (h : Event.mprotect a l p r ∈ okEvents len prot pages) :
    p = prot := by
  simp only [okEvents, List.mem_map, Event.mprotect.injEq] at h
  obtain ⟨_, -, -, -, hp, -⟩ := h
  exact hp.symm

theorem modifyBinary_request_flags (fuel : Nat) (k : Kernel) (m : Machine) (A : Nat)
    (B : List Nat) (a : Nat) (l : Int) (p : Nat) (r : Option Nat)
    (hmem : Event.mprotect a l p r ∈ emitted m (modifyBinary fuel k m A B).machine) :
    p = PROT_READ ||| PROT_WRITE ∨ p = PROT_READ ||| PROT_EXEC := by
  obtain ⟨pg1, h1 | h1 | h1 | ⟨pg2, h1 | h1 | h1⟩⟩ := modifyBinary_cases fuel k m A B
  · obtain ⟨m1, ho, -, ht⟩ := h1
    rw [ho] at hmem
    simp only [Outcome.machine] at hmem
    rw [emitted_eq m m1 _ ht] at hmem
    exact Or.inl (mem_okEvents_prot _ _ _ _ _ _ _ hmem)
  · obtain ⟨m1, q1, e1, ho, -, ht⟩ := h1
    rw [List.append_assoc] at ht
    rw [ho] at hmem
    simp only [Outcome.machine] at hmem
    rw [emitted_eq m m1 _ ht] at hmem
    rcases List.mem_append.1 hmem with hmem | hmem
    · exact Or.inl (mem_okEvents_prot _ _ _ _ _ _ _ hmem)
    · simp only [List.mem_singleton, Event.mprotect.injEq] at hmem
      exact Or.inl hmem.2.2.1
  · obtain ⟨m1, w, ho, -, ht⟩ := h1
    rw [ho] at hmem
    simp only [Outcome.machine] at hmem
    rw [emitted_eq m m1 _ ht] at hmem
    exact Or.inl (mem_okEvents_prot _ _ _ _ _ _ _ hmem)
  · obtain ⟨m1, ho, -, ht⟩ := h1
    rw [List.append_assoc, List.append_assoc] at ht
    rw [ho] at hmem
    simp only [Outcome.machine] at hmem
    rw [emitted_eq m m1 _ ht] at hmem
    rcases List.mem_append.1 hmem with hmem | hmem
    · exact Or.inl (mem_okEvents_prot _ _ _ _ _ _ _ hmem)
    · rcases List.mem_append.1 hmem with hmem | hmem
      · simp at hmem
      · exact Or.inr (mem_okEvents_prot _ _ _ _ _ _ _ hmem)
  · obtain ⟨m1, q1, e1, ho, -, ht⟩ := h1
    rw [List.append_assoc, List.append_assoc, List.append_assoc] at ht
    rw [ho] at hmem
    simp only [Outcome.machine] at hmem
    rw [emitted_eq m m1 _ ht] at hmem
    rcases List.mem_append.1 hmem with hmem | hmem
    · exact Or.inl (mem_okEvents_prot _ _ _ _ _ _ _ hmem)
    · rcases List.mem_append.1 hmem with hmem | hmem
      · simp at hmem
      · rcases List.mem_append.1 hmem with hmem | hmem
        · exact Or.inr (mem_okEvents_prot _ _ _ _ _ _ _ hmem)
        · simp only [List.mem_singleton, Event.mprotect.injEq] at hmem
          exact Or.inr hmem.2.2.1
  · obtain ⟨m1, ho, -, ht⟩ := h1
    rw [List.append_assoc, List.append_assoc, List.append_assoc] at ht
    rw [ho] at hmem
    simp only [Outcome.machine] at hmem
    rw [emitted_eq m m1 _ ht] at hmem
    rcases List.mem_append.1 hmem with hmem | hmem
    · exact Or.inl (mem_okEvents_prot _ _ _ _ _ _ _ hmem)
    · rcases List.mem_append.1 hmem with hmem | hmem
      · simp at hmem
      · rcases List.mem_append.1 hmem with hmem | hmem
        · exact Or.inr (mem_okEvents_prot _ _ _ _ _ _ _ hmem)
        · simp at hmem

theorem modifyBinary_returned_first (fuel : Nat) (k : Kernel) (m m1 : Machine) (A : Nat)
    (B : List Nat) (h : modifyBinary fuel k m A B = Outcome.returned m1) :
    ∃ m2, mprotectCrossPage fuel k m A (B.length : Int) (PROT_READ ||| PROT_WRITE) =
        Result.done none m2 ∧ storable m2.prot A B = B.length := by
  unfold modifyBinary at h
  simp only at h
  cases h1 : mprotectCrossPage fuel k m A (B.length : Int) (PROT_READ ||| PROT_WRITE) with
  | running m2 => rw [h1] at h; simp at h
  | done err m2 =>
    cases err with
    | some e => rw [h1] at h; simp at h
    | none =>
      refine ⟨m2, rfl, ?_⟩
      rw [h1] at h
      simp only at h
      rw [copy_eq] at h
      by_contra hs
      rw [if_neg hs] at h
      simp at h

/-- A region that reaches the top of the address space is never granted write by
`mprotectCrossPage`, because the loop bound wraps around: a call of `modifyBinary` on
it can only return if every byte of the region was writable before the call. -/
theorem modifyBinary_returned_top (k : Kernel) (hk : pageSizeOk k) (m m1 : Machine) (A : Nat)
    (B : List Nat) (hB : B.length < 2 ^ 63) (hA : A < W) (htop : W ≤ A + B.length)
    (fuel : Nat) (h : modifyBinary fuel k m A B = Outcome.returned m1) :
    ∀ i, i < B.length → writable m.prot ((A + i) % W) = true := by
  obtain ⟨m2, hfirst, hs⟩ := modifyBinary_returned_first fuel k m m1 A B h
  have e := mprotectCrossPage_done_none k hk m m2 A B.length _ hB hA fuel hfirst
  have hc : touchedCount k.pagesize A B.length = 0 := by
    unfold touchedCount; rw [if_neg (by omega)]
  rw [hc] at e
  simp only [grants] at e
  subst e
  exact storable_writable m2.prot B A hs

/-- Claim C8: in every run of `modifyBinary(A, B)` each protection request carries
exactly read+write or exactly read+execute, never write together with execute. Every
run that returns has made read+write requests for the pages of the range, then the
copy, then read+execute requests for the same pages, then the delay; these pages cover
`[A, A + len(B))`, and every address of them is left with read+execute protection. This
holds of every returning run on a region that ends below the top of the address space
or has at least one byte that was not writable before the call; the only other
returning runs are on memory that reaches the top of the address space and was writable
in full before the call, where the wrapped loop bound makes no request. When every
request succeeds and the region ends at least one page below the top of the address
space the call does return. -/
theorem C8_protection_flags (k : Kernel) (m : Machine) (A : Nat) (B : List Nat) :
    (∀ fuel a l p r, Event.mprotect a l p r ∈ emitted m (modifyBinary fuel k m A B).machine →
        (p = PROT_READ ||| PROT_WRITE ∨ p = PROT_READ ||| PROT_EXEC) ∧
          ¬ (p &&& PROT_WRITE ≠ 0 ∧ p &&& PROT_EXEC ≠ 0)) ∧
      (pageSizeOk k → A < W → B.length < 2 ^ 63 →
        (A + B.length < W ∨ ∃ i, i < B.length ∧ writable m.prot ((A + i) % W) = false) →
        ∀ fuel m1, modifyBinary fuel k m A B = Outcome.returned m1 →
          emitted m m1 =
              okEvents k.pagesize (PROT_READ ||| PROT_WRITE)
                  (pagesFrom (pageStart k A) k.pagesize
                    (touchedCount k.pagesize A B.length)) ++
                [Event.copy A B] ++
                okEvents k.pagesize (PROT_READ ||| PROT_EXEC)
                  (pagesFrom (pageStart k A) k.pagesize
                    (touchedCount k.pagesize A B.length)) ++
                [Event.sleep Millisecond] ∧
            pageStart k A ≤ A ∧
            A + B.length ≤ pageStart k A + touchedCount k.pagesize A B.length * k.pagesize ∧
            ∀ a, pageStart k A ≤ a →
              a < pageStart k A + touchedCount k.pagesize A B.length * k.pagesize →
              m1.prot a = PROT_READ ||| PROT_EXEC) ∧
      (pageSizeOk k → allSucceed k → A + B.length + k.pagesize ≤ W →
        ∃ fuel m1, modifyBinary fuel k m A B = Outcome.returned m1) := by
  refine ⟨?_, ?_, ?_⟩
  · intro fuel a l p r hmem
    have hp := modifyBinary_request_flags fuel k m A B a l p r hmem
    refine ⟨hp, ?_⟩
    rcases hp with hp | hp <;> subst hp <;> decide
  · intro hk hAW hB hreg fuel m1 h
    have hA : A + B.length < W := by
      by_contra htop
      rcases hreg with hreg | ⟨i, hi, hw⟩
      · exact htop hreg
      · have := modifyBinary_returned_top k hk m m1 A B hB hAW (by omega) fuel h i hi
        rw [hw] at this
        exact Bool.false_ne_true this
    obtain ⟨m2, hfirst, -⟩ := modifyBinary_returned_first fuel k m m1 A B h
    have hfit : A + B.length + k.pagesize ≤ W := by
      by_contra hno
      exact mprotectCrossPage_last_page k hk m m2 A B.length _ hA (by omega) fuel hfirst
    obtain ⟨-, h2, -⟩ := touched_facts k hk A B.length hAW (Or.inl hfit)
    rw [Nat.mod_eq_of_lt hA] at h2
    have e := modifyBinary_returned_eq k hk m m1 A B hB hAW fuel h
    subst e
    refine ⟨emitted_eq _ _ _ (installed_trace k m A B), pageStart_le k A, h2, ?_⟩
    intro a ha1 ha2
    rw [installed_prot, if_pos ⟨ha1, ha2⟩]
  · intro hk hall hfit
    exact ⟨_, _, modifyBinary_ok k hk hall m A B hfit
      (touchedCount k.pagesize A B.length + 1) (by omega)⟩

/-- Witness of C8: ten bytes installed at 4090 with page size 4096 over memory with no
access rights; the run returns and the bytes on both sides of the page boundary 4096
are left with read+execute. -/
theorem C8_protection_flags_witness :
    modifyBinary 3 (kernelOk 4096) machine0 4090 [1, 2, 3, 4, 5, 6, 7, 8, 9, 10] =
        Outcome.returned (installed (kernelOk 4096) machine0 4090
          [1, 2, 3, 4, 5, 6, 7, 8, 9, 10]) ∧
      (installed (kernelOk 4096) machine0 4090 [1, 2, 3, 4, 5, 6, 7, 8, 9, 10]).prot 4095 =
        PROT_READ ||| PROT_EXEC ∧
      (installed (kernelOk 4096) machine0 4090 [1, 2, 3, 4, 5, 6, 7, 8, 9, 10]).prot 4096 =
        PROT_READ ||| PROT_EXEC :=
  have hrun : modifyBinary 3 (kernelOk 4096) machine0 4090 [1, 2, 3, 4, 5, 6, 7, 8, 9, 10] =
      Outcome.returned (installed (kernelOk 4096) machine0 4090
        [1, 2, 3, 4, 5, 6, 7, 8, 9, 10]) :=
    modifyBinary_ok (kernelOk 4096) pageSizeOk_kernelOk_4096 (allSucceed_kernelOk 4096)
      machine0 4090 [1, 2, 3, 4, 5, 6, 7, 8, 9, 10] (by decide) 3 (by decide)
  have h := ((C8_protection_flags (kernelOk 4096) machine0 4090
    [1, 2, 3, 4, 5, 6, 7, 8, 9, 10]).2.1 ⟨12, by decide, by decide⟩ (by decide) (by decide)
    (Or.inl (by decide)) 3 _ hrun).2.2.2
  ⟨hrun, h 4095 (by decide) (by decide), h 4096 (by decide) (by decide)⟩

/-- At the top of the address space: with page size 4096 and address `2^64 - 8`, eight
bytes end exactly at `2^64`, the loop bound wraps around to 0 and no request is made, so
the copy stores into memory that was never granted write: the run ends in a fault with
no event, and does not return. -/
theorem modifyBinary_top_faults :
    ∃ m1, modifyBinary 1 (kernelOk 4096) machine0 (2 ^ 64 - 8) [1, 2, 3, 4, 5, 6, 7, 8] =
        Outcome.faulted m1 ∧ emitted machine0 m1 = [] ∧ m1.mem (2 ^ 64 - 8) = 0 :=
  ⟨_, rfl, by decide, by decide⟩

/-! ## The order of the steps -/

theorem ordered_append (c d : Nat) (l1 l2 : List Event)
    (h1 : List.Pairwise (fun x y => x ≤ y) (l1.map phase)) (hb : ∀ x ∈ l1, phase x ≤ c)
    (h2 : ∀ x ∈ l2, phase x = d) (hcd : c ≤ d) :
    List.Pairwise (fun x y => x ≤ y) ((l1 ++ l2).map phase) ∧
      ∀ x ∈ l1 ++ l2, phase x ≤ d := by
  constructor
  · rw [List.map_append, List.pairwise_append]
    refine ⟨h1, ?_, ?_⟩
    · rw [List.pairwise_map]
      apply List.pairwise_of_forall_mem_list
      intro a ha b hb2
      rw [h2 a ha, h2 b hb2]
    · intro a ha b hb2
      obtain ⟨x, hx, rfl⟩ := List.mem_map.1 ha
      obtain ⟨y, hy, rfl⟩ := List.mem_map.1 hb2
      have := hb x hx
      have := h2 y hy
      omega
  · intro x hx
    rcases List.mem_append.1 hx with hx | hx
    · have := hb x hx; omega
    · have := h2 x hx; omega

theorem phase_okEvents_rw (len : Int) (pages : List Nat) :
    ∀ x ∈ okEvents len (PROT_READ ||| PROT_WRITE) pages, phase x = 0 := by
  intro x hx
  obtain ⟨p, -, rfl⟩ := List.mem_map.1 hx
  rfl

theorem phase_okEvents_rx (len : Int) (pages : List Nat) :
    ∀ x ∈ okEvents len (PROT_READ ||| PROT_EXEC) pages, phase x = 2 := by
  intro x hx
  obtain ⟨p, -, rfl⟩ := List.mem_map.1 hx
  rfl

theorem phase_singleton (e : Event) (d : Nat) (h : phase e = d) : ∀ x ∈ [e], phase x = d := by
  intro x hx
  rw [List.mem_singleton.1 hx]; exact h

theorem ordered_rw (len : Int) (pg1 : List Nat) :
    List.Pairwise (fun x y => x ≤ y)
        ((okEvents len (PROT_READ ||| PROT_WRITE) pg1).map phase) ∧
      ∀ x ∈ okEvents len (PROT_READ ||| PROT_WRITE) pg1, phase x ≤ 0 := by
  have h := ordered_append 0 0 [] (okEvents len (PROT_READ ||| PROT_WRITE) pg1)
    List.Pairwise.nil (by simp) (phase_okEvents_rw len pg1) (Nat.le_refl 0)
  simpa using h

theorem ordered_copy (len : Int) (pg1 pg2 : List Nat) (A : Nat) (B : List Nat) :
    List.Pairwise (fun x y => x ≤ y)
        ((okEvents len (PROT_READ ||| PROT_WRITE) pg1 ++ [Event.copy A B] ++
          okEvents len (PROT_READ ||| PROT_EXEC) pg2).map phase) ∧
      ∀ x ∈ okEvents len (PROT_READ ||| PROT_WRITE) pg1 ++ [Event.copy A B] ++
          okEvents len (PROT_READ ||| PROT_EXEC) pg2, phase x ≤ 2 := by
  obtain ⟨a1, a2⟩ := ordered_rw len pg1
  obtain ⟨b1, b2⟩ := ordered_append 0 1 _ [Event.copy A B] a1 a2
    (phase_singleton _ 1 rfl) (by omega)
  exact ordered_append 1 2 _ _ b1 b2 (phase_okEvents_rx len pg2) (by omega)

theorem modifyBinary_ordered (fuel : Nat) (k : Kernel) (m : Machine) (A : Nat)
    (B : List Nat) :
    List.Pairwise (fun x y => x ≤ y)
      ((emitted m (modifyBinary fuel k m A B).machine).map phase) := by
  obtain ⟨pg1, h1 | h1 | h1 | ⟨pg2, h1 | h1 | h1⟩⟩ := modifyBinary_cases fuel k m A B
  · obtain ⟨m1, ho, -, ht⟩ := h1
    rw [ho]
    simp only [Outcome.machine]
    rw [emitted_eq m m1 _ ht]
    exact (ordered_rw _ pg1).1
  · obtain ⟨m1, q1, e1, ho, -, ht⟩ := h1
    rw [List.append_assoc] at ht
    rw [ho]
    simp only [Outcome.machine]
    rw [emitted_eq m m1 _ ht]
    obtain ⟨a1, a2⟩ := ordered_rw (k.pagesize : Int) pg1
    exact (ordered_append 0 0 _
      [Event.mprotect q1 k.pagesize (PROT_READ ||| PROT_WRITE) (some e1)] a1 a2
      (phase_singleton _ 0 rfl) (Nat.le_refl 0)).1
  · obtain ⟨m1, w, ho, -, ht⟩ := h1
    rw [ho]
    simp only [Outcome.machine]
    rw [emitted_eq m m1 _ ht]
    exact (ordered_rw _ pg1).1
  · obtain ⟨m1, ho, -, ht⟩ := h1
    have ht2 : m1.trace = m.trace ++
        (okEvents k.pagesize (PROT_READ ||| PROT_WRITE) pg1 ++ [Event.copy A B] ++
          okEvents k.pagesize (PROT_READ ||| PROT_EXEC) pg2) := by
      rw [ht]; simp only [List.append_assoc]
    rw [ho]
    simp only [Outcome.machine]
    rw [emitted_eq m m1 _ ht2]
    exact (ordered_copy _ pg1 pg2 A B).1
  · obtain ⟨m1, q1, e1, ho, -, ht⟩ := h1
    have ht2 : m1.trace = m.trace ++
        (okEvents k.pagesize (PROT_READ ||| PROT_WRITE) pg1 ++ [Event.copy A B] ++
          okEvents k.pagesize (PROT_READ ||| PROT_EXEC) pg2 ++
          [Event.mprotect q1 k.pagesize (PROT_READ ||| PROT_EXEC) (some e1)]) := by
      rw [ht]; simp only [List.append_assoc]
    rw [ho]
    simp only [Outcome.machine]
    rw [emitted_eq m m1 _ ht2]
    obtain ⟨a1, a2⟩ := ordered_copy (k.pagesize : Int) pg1 pg2 A B
    exact (ordered_append 2 2 _
      [Event.mprotect q1 k.pagesize (PROT_READ ||| PROT_EXEC) (some e1)] a1 a2
      (phase_singleton _ 2 rfl) (Nat.le_refl 2)).1
  · obtain ⟨m1, ho, -, ht⟩ := h1
    have ht2 : m1.trace = m.trace ++
        (okEvents k.pagesize (PROT_READ ||| PROT_WRITE) pg1 ++ [Event.copy A B] ++
          okEvents k.pagesize (PROT_READ ||| PROT_EXEC) pg2 ++
          [Event.sleep Millisecond]) := by
      rw [ht]; simp only [List.append_assoc]
    rw [ho]
    simp only [Outcome.machine]
    rw [emitted_eq m m1 _ ht2]
    obtain ⟨a1, a2⟩ := ordered_copy (k.pagesize : Int) pg1 pg2 A B
    exact (ordered_append 2 3 _ [Event.sleep Millisecond] a1 a2
      (phase_singleton _ 3 rfl) (by omega)).1

/-- Claim C9: in every run of `modifyBinary(A, B)` the events occur in the order
grant-write requests, copy, grant-execute requests, delay; in every run in which a
read+execute request fails, the call panics with the error of that request, the bytes
`B` are already in memory at `A`, the copy precedes the failed request, which is the
last event, and no delay is taken. Such a run happens for every page touched by
`[A, A + len(B))` (region at least one page below the top of the address space): if the
kernel accepts every read+write request and the read+execute requests for the pages
before it, and refuses the read+execute request for that page with error `e`, then with
enough fuel the call panics with `e` after the grant-write requests for all pages, the
copy, and exactly those grant-execute requests. -/
theorem C9_step_order (k : Kernel) (m : Machine) (A : Nat) (B : List Nat)
    (hk : pageSizeOk k) (hB : B.length < 2 ^ 63) :
    (∀ fuel, List.Pairwise (fun x y => x ≤ y)
        ((emitted m (modifyBinary fuel k m A B).machine).map phase)) ∧
      (∀ fuel q l e,
        Event.mprotect q l (PROT_READ ||| PROT_EXEC) (some e) ∈
          emitted m (modifyBinary fuel k m A B).machine →
        ∃ m1, modifyBinary fuel k m A B = Outcome.panicked e m1 ∧
          readBytes m1.mem A B.length = B ∧
          Event.copy A B ∈ emitted m m1 ∧
          (emitted m m1).getLast? =
            some (Event.mprotect q l (PROT_READ ||| PROT_EXEC) (some e)) ∧
          ∀ d, Event.sleep d ∉ emitted m m1) ∧
      (∀ j e, A + B.length + k.pagesize ≤ W →
        pageStart k A + j * k.pagesize < A + B.length →
        (∀ s a l, k.mprotectErr s a l (PROT_READ ||| PROT_WRITE) = none) →
        (∀ s i, i < j → k.mprotectErr s (pageStart k A + i * k.pagesize) k.pagesize
          (PROT_READ ||| PROT_EXEC) = none) →
        (∀ s, k.mprotectErr s (pageStart k A + j * k.pagesize) k.pagesize
          (PROT_READ ||| PROT_EXEC) = some e) →
        ∀ fuel, touchedCount k.pagesize A B.length < fuel →
          ∃ m1, modifyBinary fuel k m A B = Outcome.panicked e m1 ∧
            readBytes m1.mem A B.length = B ∧
            emitted m m1 =
              okEvents k.pagesize (PROT_READ ||| PROT_WRITE)
                  (pagesFrom (pageStart k A) k.pagesize
                    (touchedCount k.pagesize A B.length)) ++
                [Event.copy A B] ++
                okEvents k.pagesize (PROT_READ ||| PROT_EXEC)
                  (pagesFrom (pageStart k A) k.pagesize j) ++
                [Event.mprotect (pageStart k A + j * k.pagesize) k.pagesize
                  (PROT_READ ||| PROT_EXEC) (some e)]) := by
  have hBW := two_pow_63_le_W hB
  refine ⟨fun fuel => modifyBinary_ordered fuel k m A B, ?_, ?_⟩
  · intro fuel q l e hmem
    obtain ⟨pg1, h1 | h1 | h1 | ⟨pg2, h1 | h1 | h1⟩⟩ := modifyBinary_cases fuel k m A B
    · obtain ⟨m1, ho, -, ht⟩ := h1
      rw [ho] at hmem
      simp only [Outcome.machine] at hmem
      rw [emitted_eq m m1 _ ht] at hmem
      exact absurd hmem (not_mem_okEvents_some _ _ _ _ _ _ _)
    · obtain ⟨m1, q1, e1, ho, -, ht⟩ := h1
      rw [List.append_assoc] at ht
      rw [ho] at hmem
      simp only [Outcome.machine] at hmem
      rw [emitted_eq m m1 _ ht] at hmem
      simp [okEvents, rw_ne_rx.symm] at hmem
    · obtain ⟨m1, w, ho, -, ht⟩ := h1
      rw [ho] at hmem
      simp only [Outcome.machine] at hmem
      rw [emitted_eq m m1 _ ht] at hmem
      exact absurd hmem (not_mem_okEvents_some _ _ _ _ _ _ _)
    · obtain ⟨m1, ho, -, ht⟩ := h1
      rw [List.append_assoc, List.append_assoc] at ht
      rw [ho] at hmem
      simp only [Outcome.machine] at hmem
      rw [emitted_eq m m1 _ ht] at hmem
      simp [okEvents] at hmem
    · obtain ⟨m1, q1, e1, ho, hm, ht⟩ := h1
      rw [List.append_assoc, List.append_assoc, List.append_assoc] at ht
      have he := emitted_eq m m1 _ ht
      rw [ho] at hmem
      simp only [Outcome.machine] at hmem
      rw [he] at hmem
      have hev : Event.mprotect q l (PROT_READ ||| PROT_EXEC) (some e) =
          Event.mprotect q1 k.pagesize (PROT_READ ||| PROT_EXEC) (some e1) := by
        rcases List.mem_append.1 hmem with hmem | hmem
        · exact absurd hmem (not_mem_okEvents_some _ _ _ _ _ _ _)
        · rcases List.mem_append.1 hmem with hmem | hmem
          · simp at hmem
          · rcases List.mem_append.1 hmem with hmem | hmem
            · exact absurd hmem (not_mem_okEvents_some _ _ _ _ _ _ _)
            · exact List.mem_singleton.1 hmem
      have hee : e = e1 := by
        simp only [Event.mprotect.injEq, Option.some.injEq] at hev
        exact hev.2.2.2
      subst hee
      refine ⟨m1, ho, ?_, ?_, ?_, ?_⟩
      · rw [hm]; exact readBytes_storeBytes m.mem A B hBW
      · rw [he]; simp
      · rw [he, hev, ← List.append_assoc, ← List.append_assoc]
        exact List.getLast?_concat _
      · intro d hd
        rw [he] at hd
        simp [okEvents] at hd
    · obtain ⟨m1, ho, -, ht⟩ := h1
      rw [List.append_assoc, List.append_assoc, List.append_assoc] at ht
      rw [ho] at hmem
      simp only [Outcome.machine] at hmem
      rw [emitted_eq m m1 _ ht] at hmem
      simp [okEvents] at hmem
  · intro j e hfit hj hrw hrxok hrxfail fuel hf
    obtain ⟨hpos, -, -, -⟩ := pageSizeOk_facts hk
    have hA : A < W := by omega
    have hb : A + B.length < W := by omega
    obtain ⟨-, h2, -⟩ := touched_facts k hk A B.length hA (Or.inl hfit)
    rw [Nat.mod_eq_of_lt hb] at h2
    have hjc : j < touchedCount k.pagesize A B.length := by
      apply Nat.lt_of_mul_lt_mul_right (a := k.pagesize)
      omega
    have hrun1 := mprotectCrossPage_ok k hk m A B.length (PROT_READ ||| PROT_WRITE) hA
      (Or.inl hfit) (fun i _ => hrw _ _ _) fuel hf
    have hrun2 := mprotectCrossPage_fail k hk
      (stored (grants (k.pagesize : Int) k.pagesize (PROT_READ ||| PROT_WRITE)
        (touchedCount k.pagesize A B.length) (pageStart k A) m) A B)
      A B.length (PROT_READ ||| PROT_EXEC) hb j e hj
      (fun i hi => hrxok _ i hi) (hrxfail _) fuel (by omega)
    have ho : modifyBinary fuel k m A B = Outcome.panicked e
        (refuse (grants (k.pagesize : Int) k.pagesize (PROT_READ ||| PROT_EXEC) j
          (pageStart k A)
          (stored (grants (k.pagesize : Int) k.pagesize (PROT_READ ||| PROT_WRITE)
            (touchedCount k.pagesize A B.length) (pageStart k A) m) A B))
          (pageStart k A + j * k.pagesize) k.pagesize (PROT_READ ||| PROT_EXEC) e) := by
      unfold modifyBinary
      simp only
      rw [hrun1]
      simp only
      rw [copy_eq, if_pos (grants_storable k hk m A B hfit)]
      simp only
      rw [hrun2]
    refine ⟨_, ho, ?_, ?_⟩
    · simp only [refuse]
      rw [grants_mem, stored_mem, grants_mem]
      exact readBytes_storeBytes m.mem A B hBW
    · apply emitted_eq
      simp only [refuse]
      rw [grants_trace, stored_trace, grants_trace]
      simp only [List.append_assoc]

/-- Witness of C9: ten bytes at 4090 touch the pages 0 and 4096; the kernel refuses
read+execute on page 4096 with error 13: the call panics with 13 after both grant-write
requests, the copy and the grant-execute request for page 0, the bytes being in place. -/
theorem C9_step_order_witness :
    ∃ m1, modifyBinary 3 (kernelFailing 4096 4096 (PROT_READ ||| PROT_EXEC) 13) machine0 4090
        [1, 2, 3, 4, 5, 6, 7, 8, 9, 10] = Outcome.panicked 13 m1 ∧
      readBytes m1.mem 4090 [1, 2, 3, 4, 5, 6, 7, 8, 9, 10].length =
        [1, 2, 3, 4, 5, 6, 7, 8, 9, 10] ∧
      emitted machine0 m1 =
        okEvents (kernelFailing 4096 4096 (PROT_READ ||| PROT_EXEC) 13).pagesize
            (PROT_READ ||| PROT_WRITE)
            (pagesFrom (pageStart (kernelFailing 4096 4096 (PROT_READ ||| PROT_EXEC) 13) 4090)
              (kernelFailing 4096 4096 (PROT_READ ||| PROT_EXEC) 13).pagesize
              (touchedCount (kernelFailing 4096 4096 (PROT_READ ||| PROT_EXEC) 13).pagesize
                4090 [1, 2, 3, 4, 5, 6, 7, 8, 9, 10].length)) ++
          [Event.copy 4090 [1, 2, 3, 4, 5, 6, 7, 8, 9, 10]] ++
          okEvents (kernelFailing 4096 4096 (PROT_READ ||| PROT_EXEC) 13).pagesize
            (PROT_READ ||| PROT_EXEC)
            (pagesFrom (pageStart (kernelFailing 4096 4096 (PROT_READ ||| PROT_EXEC) 13) 4090)
              (kernelFailing 4096 4096 (PROT_READ ||| PROT_EXEC) 13).pagesize 1) ++
          [Event.mprotect
            (pageStart (kernelFailing 4096 4096 (PROT_READ ||| PROT_EXEC) 13) 4090 +
              1 * (kernelFailing 4096 4096 (PROT_READ ||| PROT_EXEC) 13).pagesize)
            (kernelFailing 4096 4096 (PROT_READ ||| PROT_EXEC) 13).pagesize
            (PROT_READ ||| PROT_EXEC) (some 13)] :=
  (C9_step_order (kernelFailing 4096 4096 (PROT_READ ||| PROT_EXEC) 13) machine0 4090
    [1, 2, 3, 4, 5, 6, 7, 8, 9, 10] ⟨12, by decide, by decide⟩ (by decide)).2.2 1 13
    (by decide) (by decide)
    (fun _ a l => by
      show (if a = 4096 ∧ PROT_READ ||| PROT_WRITE = PROT_READ ||| PROT_EXEC then some 13
        else none) = none
      rw [if_neg (fun h => rw_ne_rx h.2)])
    (fun _ i hi => by
      have h0 : i = 0 := by omega
      subst h0
      rfl)
    (fun _ => rfl) 3 (by decide)

end Gomonkey
